import Mathlib

/-!
Verification of the shared conversation-memory store of the Japanese-Tools
repository (`src/ai/src/memory.rs` and `src/ai/src/memory/user_groups.rs`).

The Rust `HashMap`s and `HashSet`s are embedded as association lists
(`List (k × v)`) and duplicate-free lists (`List α`): `HashMap` iteration
order is arbitrary, so the list order of the embedding models one concrete
iteration order, and theorems quantify over all input lists, hence over all
iteration orders.  `usize` group ids become `Nat`; `OffsetDateTime` instants
and `time::Duration`s become `Int` (a linear timeline measured in seconds).
Every `OffsetDateTime::now_utc()` call site takes the current instant as an
explicit `now` parameter.  Rust operations that can panic (`Option::unwrap`)
are embedded as `Option`-returning functions where `none` marks a panic.
-/

namespace JT

abbrev Instant := Int

/-- Lookup: first entry with the given key (`HashMap::get`). -/
def alGet [DecidableEq k] (m : List (k × v)) (key : k) : Option v :=
  match m with
  | [] => none
  | (a, b) :: rest => if a = key then some b else alGet rest key

/-- `HashMap::contains_key`. -/
def alContains [DecidableEq k] (m : List (k × v)) (key : k) : Bool :=
  (alGet m key).isSome

/-- `HashMap::insert`: replace the entry in place, or append a new one. -/
def alInsert [DecidableEq k] (m : List (k × v)) (key : k) (val : v) : List (k × v) :=
  match m with
  | [] => [(key, val)]
  | (a, b) :: rest => if a = key then (key, val) :: rest else (a, b) :: alInsert rest key val

/-- `HashMap::remove` (the removed value is read separately via `alGet`). -/
def alErase [DecidableEq k] (m : List (k × v)) (key : k) : List (k × v) :=
  match m with
  | [] => []
  | (a, b) :: rest => if a = key then rest else (a, b) :: alErase rest key

/-- In-place update of one entry (`HashMap::get_mut` followed by mutation). -/
def alModify [DecidableEq k] (m : List (k × v)) (key : k) (f : v → v) : List (k × v) :=
  match m with
  | [] => []
  | (a, b) :: rest => if a = key then (a, f b) :: rest else (a, b) :: alModify rest key f

/-- The list of keys of an association list. -/
def alKeys (m : List (k × v)) : List k := m.map Prod.fst

/-- Key uniqueness: always true of a `HashMap`'s entry list. -/
abbrev alNodup [DecidableEq k] (m : List (k × v)) : Prop := (alKeys m).Nodup

/-- `HashSet::insert`. -/
def setInsert [DecidableEq α] (s : List α) (x : α) : List α :=
  if x ∈ s then s else s ++ [x]

/-- `HashSet::remove`. -/
def setRemove [DecidableEq α] (s : List α) (x : α) : List α :=
  s.filter (fun y => y ≠ x)

/-- `USER_GROUP_RETENTION` from `src/ai/src/constants.rs`:
`time::Duration::hours(16)`, in seconds on the `Int` timeline. -/
def USER_GROUP_RETENTION : Int := 16 * 60 * 60

/-- `GroupInfo { members: HashSet<String>, last_modified: OffsetDateTime }`. -/
structure GroupInfo where
  members : List String
  last_modified : Instant
  deriving Repr, DecidableEq

/-- `GroupInfo::new(user)`. -/
def GroupInfo.new (user : String) (now : Instant) : GroupInfo :=
  { members := [user], last_modified := now }

/-- `GroupInfo::merge(&mut self, other)`: `self.members.extend(other.members)`
followed by `self.last_modified = now`. -/
def GroupInfo.merge (self other : GroupInfo) (now : Instant) : GroupInfo :=
  { members := other.members.foldl setInsert self.members, last_modified := now }

/-- `GroupSets { user_to_group: HashMap<String, usize>, groups: HashMap<usize, GroupInfo>,
next_group_id: usize }`. -/
structure GroupSets where
  user_to_group : List (String × Nat)
  groups : List (Nat × GroupInfo)
  next_group_id : Nat
  deriving Repr, DecidableEq

/-- `GroupSets::default()` / `GroupSets::new()`: empty maps and allocator 0. -/
def gsEmpty : GroupSets := { user_to_group := [], groups := [], next_group_id := 0 }

namespace GroupSets

/-- `GroupSets::find_group`. -/
def find_group (g : GroupSets) (user : String) : Option Nat :=
  alGet g.user_to_group user

/-- `GroupSets::add_user`: add the user as a fresh singleton group if absent. -/
def add_user (g : GroupSets) (user : String) (now : Instant) : GroupSets :=
  if alContains g.user_to_group user then g
  else
    { user_to_group := alInsert g.user_to_group user g.next_group_id,
      groups := alInsert g.groups g.next_group_id (GroupInfo.new user now),
      next_group_id := g.next_group_id + 1 }

/-- `GroupSets::union`.  The source unwraps `find_group` results, the removed
second group, and `get_mut` of the first group; each such `unwrap` becomes a
`none` result (a panic). -/
def union (g0 : GroupSets) (user1 user2 : String) (now : Instant) : Option GroupSets :=
  let g := (g0.add_user user1 now).add_user user2 now
  match g.find_group user1, g.find_group user2 with
  | some group1_id, some group2_id =>
    if group1_id = group2_id then some g
    else
      match alGet g.groups group2_id with
      | none => none
      | some group2 =>
        let groups1 := alErase g.groups group2_id
        let utg1 := group2.members.foldl (fun m member => alInsert m member group1_id)
          g.user_to_group
        match alGet groups1 group1_id with
        | none => none
        | some _ =>
          some { user_to_group := utg1,
                 groups := alModify groups1 group1_id (fun i => i.merge group2 now),
                 next_group_id := g.next_group_id }
  | _, _ => none

/-- `GroupSets::get_group_members`.  The source unwraps the group lookup when
the index has an entry; `none` marks that panic. -/
def get_group_members (g : GroupSets) (user : String) : Option (List String) :=
  match g.find_group user with
  | some group_id => (alGet g.groups group_id).map (fun info => info.members)
  | none => some [user]

/-- `GroupSets::remove_user`: take the user out of its group (refreshing
`last_modified`, dropping the group if emptied), drop the index entry, then
re-add the user as a fresh singleton. -/
def remove_user (g : GroupSets) (user : String) (now : Instant) : GroupSets :=
  match g.find_group user with
  | none => g
  | some group_id =>
    let g1 :=
      match alGet g.groups group_id with
      | some group_info =>
        let members1 := setRemove group_info.members user
        if members1.isEmpty then
          { g with groups := alErase g.groups group_id }
        else
          let info1 : GroupInfo := { members := members1, last_modified := now }
          { g with groups := alModify g.groups group_id (fun _ => info1) }
      | none => g
    let g2 := { g1 with user_to_group := alErase g1.user_to_group user }
    g2.add_user user now

/-- `GroupSets::expire_old_groups`: drop groups older than the retention
window, drop index entries whose group vanished in that first step, then drop
groups left with a single member (without touching the index again). -/
def expire_old_groups (g : GroupSets) (now : Instant) : GroupSets :=
  let oldest_allowed := now - USER_GROUP_RETENTION
  let groups1 := g.groups.filter (fun e => decide (oldest_allowed < e.2.last_modified))
  let utg1 := g.user_to_group.filter (fun p => alContains groups1 p.2)
  let groups2 := groups1.filter (fun e => decide (1 < e.2.members.length))
  { user_to_group := utg1, groups := groups2, next_group_id := g.next_group_id }

/-- One step of the second consistency pass of `from_maps`, for one group:
collect its members into `users_in_groups` and re-point each member's index
entry at this group when it disagrees. -/
def passStep (acc : List String × List (String × Nat)) (e : Nat × GroupInfo) :
    List String × List (String × Nat) :=
  e.2.members.foldl
    (fun (acc2 : List String × List (String × Nat)) user =>
      (setInsert acc2.1 user,
       if alGet acc2.2 user = some e.1 then acc2.2 else alInsert acc2.2 user e.1))
    acc

/-- The state of the accumulator in the second consistency pass of
`from_maps`: the `users_in_groups` set and the index being repaired. -/
def fromMapsPass (groups : List (Nat × GroupInfo)) (utg0 : List (String × Nat)) :
    List String × List (String × Nat) :=
  groups.foldl passStep ([], utg0)

/-- `groups.keys().max().map(|x| x + 1).unwrap_or_default()`. -/
def nextIdOf (groups : List (Nat × GroupInfo)) : Nat :=
  match (alKeys groups).maximum with
  | some m => m + 1
  | none => 0

/-- `GroupSets::from_maps`: rebuild a `GroupSets` from two raw relations. -/
def from_maps (user_to_group : List (String × Nat)) (groups : List (Nat × GroupInfo)) :
    GroupSets :=
  let utg1 := user_to_group.filter (fun p => alContains groups p.2)
  let pass := fromMapsPass groups utg1
  let users_in_groups := pass.1
  let utg2 := pass.2
  let utg3 := utg2.filter (fun p => decide (p.1 ∈ users_in_groups))
  let groups2 := groups.map
    (fun e => (e.1, { e.2 with members := e.2.members.filter (fun u => alContains utg3 u) }))
  let groups3 := groups2.filter (fun e => decide (¬e.2.members.isEmpty))
  { user_to_group := utg3, groups := groups3, next_group_id := nextIdOf groups3 }

end GroupSets

/-- Invariant 1: every index entry `(user, group_id)` is backed by a group
with that id whose member set contains the user. -/
def Inv1 (g : GroupSets) : Prop :=
  ∀ user gid, alGet g.user_to_group user = some gid →
    ∃ info, alGet g.groups gid = some info ∧ user ∈ info.members

/-- Invariant 2: every member of every group appears in the index mapped to
that same group id. -/
def Inv2 (g : GroupSets) : Prop :=
  ∀ gid info, alGet g.groups gid = some info →
    ∀ user, user ∈ info.members → alGet g.user_to_group user = some gid

/-- Invariant 3: no group has an empty member set. -/
def Inv3 (g : GroupSets) : Prop :=
  ∀ gid info, alGet g.groups gid = some info → info.members ≠ []

/-- Invariant 4: the allocator is strictly above every live group id. -/
def Inv4 (g : GroupSets) : Prop :=
  ∀ gid, gid ∈ alKeys g.groups → gid < g.next_group_id

/-- Structural well-formedness every value built from Rust `HashMap`s and
`HashSet`s enjoys: unique keys in both maps and duplicate-free member sets. -/
def WF (g : GroupSets) : Prop :=
  alNodup g.user_to_group ∧ alNodup g.groups ∧
    ∀ e, e ∈ g.groups → (e.2.members : List String).Nodup

/-- All four invariants plus structural well-formedness. -/
def Valid (g : GroupSets) : Prop :=
  WF g ∧ Inv1 g ∧ Inv2 g ∧ Inv3 g ∧ Inv4 g

/-- Executable check of `Valid` on a concrete `GroupSets`. -/
def checkValid (g : GroupSets) : Bool :=
  (alKeys g.user_to_group).Nodup &&
  (alKeys g.groups).Nodup &&
  g.groups.all (fun e =>
    e.2.members.Nodup && !e.2.members.isEmpty && decide (e.1 < g.next_group_id) &&
    e.2.members.all (fun u => alGet g.user_to_group u = some e.1)) &&
  g.user_to_group.all (fun p =>
    match alGet g.groups p.2 with
    | some info => p.1 ∈ info.members
    | none => false)

/-- One public mutating operation of the union-find interface. -/
inductive Op where
  | addUser (user : String)
  | unionUsers (user1 user2 : String)
  | removeUser (user : String)
  deriving Repr, DecidableEq

/-- Apply one operation at one instant; `none` marks a panic inside `union`. -/
def applyOp (g : GroupSets) (op : Op) (now : Instant) : Option GroupSets :=
  match op with
  | .addUser u => some (g.add_user u now)
  | .unionUsers u1 u2 => g.union u1 u2 now
  | .removeUser u => some (g.remove_user u now)

/-- Run a sequence of timed operations from a state. -/
def run (g : GroupSets) (ops : List (Op × Instant)) : Option GroupSets :=
  match ops with
  | [] => some g
  | (op, now) :: rest =>
    match applyOp g op now with
    | none => none
    | some g' => run g' rest

namespace GroupSets

/-- The last group, in iteration order, whose member set contains `x`. -/
def lastGroupOf (groups : List (Nat × GroupInfo)) (x : String) : Option Nat :=
  match groups with
  | [] => none
  | e :: rest =>
    match lastGroupOf rest x with
    | some gid => some gid
    | none => if x ∈ e.2.members then some e.1 else none

end GroupSets

/-- `MEMORY_RETENTION` from `src/ai/src/constants.rs`:
`time::Duration::minutes(10)`, in seconds. -/
def MEMORY_RETENTION : Int := 10 * 60

/-- `MEMORY_MAX_MESSAGES` from `src/ai/src/constants.rs`. -/
def MEMORY_MAX_MESSAGES : Nat := 20

/-- The `Sender` enum. -/
inductive Sender where
  | user
  | assistant
  deriving Repr, DecidableEq

/-- One history entry of the `memory` table / in-memory map. -/
structure Entry where
  sender : Sender
  receiver : String
  timestamp : Instant
  message : String
  deriving Repr, DecidableEq

/-- The age filter of `load_history`: keep entries newer than
`now - MEMORY_RETENTION`. -/
def pruneEntries (now : Instant) (l : List Entry) : List Entry :=
  l.filter (fun e => decide (now - MEMORY_RETENTION < e.timestamp))

/-- The count cap of `load_history`: drain the front so that at most
`MEMORY_MAX_MESSAGES` entries remain. -/
def capEntries (l : List Entry) : List Entry :=
  if MEMORY_MAX_MESSAGES < l.length then l.drop (l.length - MEMORY_MAX_MESSAGES) else l

/-- The pruning half of `load_history`: the SQL query has already grouped the
rows per user, in timestamp order.  First the age-based retain (dropping the
user when nothing is left), then the count cap that drains the front. -/
def load_history_prune (now : Instant) (entries : List (String × List Entry)) :
    List (String × List Entry) :=
  let entries1 := (entries.map (fun p => (p.1, pruneEntries now p.2))).filter
    (fun p => decide (¬p.2.isEmpty))
  entries1.map (fun p => (p.1, capEntries p.2))

/-- One row of the `group_sets` table. -/
structure GroupRow where
  user : String
  receiver : String
  group_id : Nat
  last_modified : Instant
  deriving Repr, DecidableEq

/-- The durable state behind the sqlite connection: the two tables. -/
structure Storage where
  memory_rows : List (String × Entry)
  group_rows : List GroupRow
  deriving Repr, DecidableEq

/-- The `Memory` struct: the two in-memory views plus the storage handle. -/
structure Memory where
  entries : List (String × List Entry)
  joined_users : List (String × GroupSets)
  storage : Storage
  deriving Repr, DecidableEq

/-- The receivers present among the raw group rows, in first-seen order
(the keys of `receiver_to_rows`). -/
def receiversOf (rows : List GroupRow) : List String :=
  rows.foldl (fun acc row => setInsert acc row.receiver) []

/-- `load_group_sets`, inner part: fold one receiver's rows into the two raw
relations (`entry(...).or_insert_with` + member insert + index insert). -/
def buildMaps (rows : List GroupRow) : List (String × Nat) × List (Nat × GroupInfo) :=
  rows.foldl
    (fun acc row =>
      let gm1 :=
        match alGet acc.2 row.group_id with
        | some _ => alModify acc.2 row.group_id
            (fun i => { i with members := setInsert i.members row.user })
        | none =>
          acc.2 ++ [(row.group_id,
            { members := [row.user], last_modified := row.last_modified })]
      (alInsert acc.1 row.user row.group_id, gm1))
    ([], [])

/-- `load_group_sets`: per receiver, rebuild the raw maps, repair them with
`from_maps` and expire old groups. -/
def load_group_sets (rows : List GroupRow) (now : Instant) : List (String × GroupSets) :=
  (receiversOf rows).map (fun r =>
    let maps := buildMaps (rows.filter (fun row => decide (row.receiver = r)))
    (r, (GroupSets.from_maps maps.1 maps.2).expire_old_groups now))

/-- `save_group_sets`: rewrite the whole relation from the in-memory view,
one row per index entry whose group still exists. -/
def save_group_sets (gss : List (String × GroupSets)) : List GroupRow :=
  gss.flatMap (fun p => p.2.user_to_group.filterMap (fun q =>
    (alGet p.2.groups q.2).map (fun info =>
      { user := q.1, receiver := p.1, group_id := q.2,
        last_modified := info.last_modified })))

/-- The outcomes of the fallible storage steps of one transactional mutation:
`none` is success, `some e` is the error message raised by that step. -/
structure TxOutcome where
  begin_err : Option String
  load_err : Option String
  save_err : Option String
  commit_err : Option String
  deriving Repr, DecidableEq

/-- `Memory::add_to_history`: the sqlite `INSERT` runs first; only on its
success are the storage and the in-memory `entries` map updated. -/
def Memory.add_to_history (m : Memory) (user : String) (sender : Sender)
    (receiver message : String) (now : Instant) (insert_err : Option String) :
    Except String Unit × Memory :=
  let entry : Entry :=
    { sender := sender, receiver := receiver, timestamp := now, message := message }
  match insert_err with
  | some e => (.error ("Failed to save history to database: " ++ e), m)
  | none =>
    (.ok (),
     { m with
       storage := { m.storage with memory_rows := m.storage.memory_rows ++ [(user, entry)] },
       entries :=
         match alGet m.entries user with
         | some _ => alModify m.entries user (fun l => l ++ [entry])
         | none => m.entries ++ [(user, [entry])] })

/-- `Memory::join_users`: begin a transaction, reload the relation, union,
save, commit, and only then swap the in-memory view.  Any failing step
returns the error with the state untouched (the transaction rolls back);
`none` marks a panic inside `union`. -/
def Memory.join_users (m : Memory) (user1 user2 receiver : String) (now : Instant)
    (o : TxOutcome) : Option (Except String Unit × Memory) :=
  match o.begin_err with
  | some e => some (.error e, m)
  | none =>
  match o.load_err with
  | some e => some (.error e, m)
  | none =>
    let group_sets := load_group_sets m.storage.group_rows now
    let g := match alGet group_sets receiver with
      | some g0 => g0
      | none => gsEmpty
    match g.union user1 user2 now with
    | none => none
    | some g' =>
      let group_sets1 := alInsert group_sets receiver g'
      match o.save_err with
      | some e => some (.error e, m)
      | none =>
      match o.commit_err with
      | some e => some (.error e, m)
      | none =>
        some (.ok (),
          { m with joined_users := group_sets1,
                   storage := { m.storage with group_rows := save_group_sets group_sets1 } })

/-- `Memory::make_user_solo`: the same transactional pattern around
`remove_user`. -/
def Memory.make_user_solo (m : Memory) (user receiver : String) (now : Instant)
    (o : TxOutcome) : Except String Unit × Memory :=
  match o.begin_err with
  | some e => (.error e, m)
  | none =>
  match o.load_err with
  | some e => (.error e, m)
  | none =>
    let group_sets := load_group_sets m.storage.group_rows now
    let g := match alGet group_sets receiver with
      | some g0 => g0
      | none => gsEmpty
    let group_sets1 := alInsert group_sets receiver (g.remove_user user now)
    match o.save_err with
    | some e => (.error e, m)
    | none =>
    match o.commit_err with
    | some e => (.error e, m)
    | none =>
      (.ok (),
       { m with joined_users := group_sets1,
                storage := { m.storage with group_rows := save_group_sets group_sets1 } })

/-- 25 entries appended for one user, one second apart, the last one at the
load instant `0`; all fall inside the retention window. -/
def es25 : List Entry :=
  (List.range 25).map (fun i =>
    { sender := .user, receiver := "r", timestamp := (i : Int) - 24, message := "m" })

/-- A single entry far older than the retention window. -/
def esStale : List Entry :=
  [{ sender := .user, receiver := "r", timestamp := -1000, message := "old" }]

/-- A memory state with one known user history and one known channel. -/
def memFix : Memory :=
  { entries := [("a", [])], joined_users := [("r", gsEmpty)],
    storage := { memory_rows := [], group_rows := [] } }

/-- A transaction whose `begin` step fails. -/
def txFail : TxOutcome :=
  { begin_err := some "tx", load_err := none, save_err := none, commit_err := none }

/-! ## Theorems -/


/-! ## Association-list model of `HashMap` -/

/-! ## Duplicate-free-list model of `HashSet` -/

/-! ## Basic association-list lemmas -/

section AlLemmas

variable {k : Type _} {v : Type _} [DecidableEq k]

theorem alGet_eq_none (m : List (k × v)) (key : k) (h : key ∉ alKeys m) :
    alGet m key = none := by
  induction m with
  | nil => rfl
  | cons p rest ih =>
    obtain ⟨p1, p2⟩ := p
    simp only [alKeys, List.map_cons, List.mem_cons, not_or] at h
    have hne : p1 ≠ key := fun he => h.1 (Eq.symm he)
    rw [alGet, if_neg hne]
    exact ih (by simpa [alKeys] using h.2)

theorem alGet_mem (m : List (k × v)) (key : k) (val : v) (h : alGet m key = some val) :
    (key, val) ∈ m := by
  induction m with
  | nil => simp [alGet] at h
  | cons p rest ih =>
    obtain ⟨p1, p2⟩ := p
    rw [alGet] at h
    rcases eq_or_ne p1 key with hk | hk
    · rw [if_pos hk] at h
      rw [hk] at *
      cases h
      exact List.mem_cons_self _ _
    · rw [if_neg hk] at h
      exact List.mem_cons_of_mem _ (ih h)

theorem alGet_key_mem (m : List (k × v)) (key : k) (val : v) (h : alGet m key = some val) :
    key ∈ alKeys m := by
  have := alGet_mem m key val h
  exact List.mem_map.mpr ⟨(key, val), this, rfl⟩

theorem mem_alGet (m : List (k × v)) (key : k) (val : v)
    (hnd : alNodup m) (h : (key, val) ∈ m) : alGet m key = some val := by
  induction m with
  | nil => simp at h
  | cons p rest ih =>
    obtain ⟨p1, p2⟩ := p
    simp only [alNodup, alKeys, List.map_cons, List.nodup_cons] at hnd
    rcases List.mem_cons.mp h with h1 | h1
    · rw [Prod.mk.injEq] at h1
      simp [alGet, h1.1.symm, h1.2.symm]
    · have hne : p1 ≠ key := by
        intro he; subst he
        exact hnd.1 (List.mem_map.mpr ⟨(p1, val), h1, rfl⟩)
      simp only [alGet, if_neg hne]
      exact ih hnd.2 h1

theorem alGet_alInsert_self (m : List (k × v)) (key : k) (val : v) :
    alGet (alInsert m key val) key = some val := by
  induction m with
  | nil => simp [alInsert, alGet]
  | cons p rest ih =>
    obtain ⟨p1, p2⟩ := p
    by_cases hk : p1 = key
    · simp [alInsert, hk, alGet]
    · simp [alInsert, hk, alGet, ih]

theorem alGet_alInsert_ne (m : List (k × v)) (key key' : k) (val : v) (h : key' ≠ key) :
    alGet (alInsert m key val) key' = alGet m key' := by
  induction m with
  | nil => simp [alInsert, alGet, Ne.symm h]
  | cons p rest ih =>
    obtain ⟨p1, p2⟩ := p
    by_cases hk : p1 = key
    · subst hk
      simp [alInsert, alGet, Ne.symm h, h]
    · simp only [alInsert, if_neg hk, alGet]
      by_cases hk' : p1 = key' <;> simp [hk', ih]

theorem alKeys_alInsert (m : List (k × v)) (key : k) (val : v) (h : key ∉ alKeys m) :
    alKeys (alInsert m key val) = alKeys m ++ [key] := by
  induction m with
  | nil => simp [alInsert, alKeys]
  | cons p rest ih =>
    obtain ⟨p1, p2⟩ := p
    simp only [alKeys, List.map_cons, List.mem_cons, not_or] at h
    have hne : p1 ≠ key := fun he => h.1 (Eq.symm he)
    rw [alInsert, if_neg hne]
    simp only [alKeys, List.map_cons, List.cons_append, List.cons.injEq, true_and]
    exact ih (by simpa [alKeys] using h.2)

theorem mem_alKeys_alInsert (m : List (k × v)) (key key' : k) (val : v)
    (h : key' ∈ alKeys (alInsert m key val)) : key' ∈ alKeys m ∨ key' = key := by
  induction m with
  | nil =>
    right
    simpa [alInsert, alKeys] using h
  | cons p rest ih =>
    obtain ⟨p1, p2⟩ := p
    rcases eq_or_ne p1 key with hk | hk
    · subst hk
      rw [alInsert, if_pos rfl] at h
      simp only [alKeys, List.map_cons, List.mem_cons] at h ⊢
      tauto
    · rw [alInsert, if_neg hk] at h
      simp only [alKeys, List.map_cons, List.mem_cons] at h ⊢
      rcases h with h | h
      · exact Or.inl (Or.inl h)
      · rcases ih h with h' | h'
        · exact Or.inl (Or.inr h')
        · exact Or.inr h'

theorem alNodup_alInsert (m : List (k × v)) (key : k) (val : v) (hnd : alNodup m) :
    alNodup (alInsert m key val) := by
  induction m with
  | nil => simp [alInsert, alNodup, alKeys]
  | cons p rest ih =>
    obtain ⟨p1, p2⟩ := p
    simp only [alNodup, alKeys, List.map_cons, List.nodup_cons] at hnd
    by_cases hk : p1 = key
    · subst hk
      simpa [alInsert, alNodup, alKeys] using hnd
    · simp only [alInsert, if_neg hk, alNodup, alKeys, List.map_cons, List.nodup_cons]
      refine ⟨fun hmem => ?_, ih hnd.2⟩
      rcases mem_alKeys_alInsert rest key p1 val hmem with h' | h'
      · exact hnd.1 h'
      · exact hk h'

theorem alKeys_alErase_sub (m : List (k × v)) (key key' : k)
    (h : key' ∈ alKeys (alErase m key)) : key' ∈ alKeys m := by
  induction m with
  | nil => simpa [alErase] using h
  | cons p rest ih =>
    obtain ⟨p1, p2⟩ := p
    rcases eq_or_ne p1 key with hk | hk
    · rw [alErase, if_pos hk] at h
      simp only [alKeys, List.map_cons, List.mem_cons]
      exact Or.inr h
    · rw [alErase, if_neg hk] at h
      simp only [alKeys, List.map_cons, List.mem_cons] at h ⊢
      rcases h with h | h
      · exact Or.inl h
      · exact Or.inr (ih h)

theorem alNodup_alErase (m : List (k × v)) (key : k) (hnd : alNodup m) :
    alNodup (alErase m key) := by
  induction m with
  | nil => simpa [alErase] using hnd
  | cons p rest ih =>
    obtain ⟨p1, p2⟩ := p
    simp only [alNodup, alKeys, List.map_cons, List.nodup_cons] at hnd
    rcases eq_or_ne p1 key with hk | hk
    · rw [alErase, if_pos hk]
      exact hnd.2
    · rw [alErase, if_neg hk]
      simp only [alNodup, alKeys, List.map_cons, List.nodup_cons]
      exact ⟨fun hm => hnd.1 (alKeys_alErase_sub rest key p1 hm), ih hnd.2⟩

theorem alGet_alErase_self (m : List (k × v)) (key : k) (hnd : alNodup m) :
    alGet (alErase m key) key = none := by
  induction m with
  | nil => rfl
  | cons p rest ih =>
    obtain ⟨p1, p2⟩ := p
    simp only [alNodup, alKeys, List.map_cons, List.nodup_cons] at hnd
    rcases eq_or_ne p1 key with hk | hk
    · rw [alErase, if_pos hk]
      apply alGet_eq_none
      rw [← hk]
      exact hnd.1
    · rw [alErase, if_neg hk, alGet, if_neg hk]
      exact ih hnd.2

theorem alGet_alErase_ne (m : List (k × v)) (key key' : k) (h : key' ≠ key) :
    alGet (alErase m key) key' = alGet m key' := by
  induction m with
  | nil => rfl
  | cons p rest ih =>
    obtain ⟨p1, p2⟩ := p
    rcases eq_or_ne p1 key with hk | hk
    · rw [alErase, if_pos hk, alGet, if_neg (hk ▸ fun he => h he.symm)]
    · rw [alErase, if_neg hk, alGet, alGet]
      rcases eq_or_ne p1 key' with hk' | hk'
      · rw [if_pos hk', if_pos hk']
      · rw [if_neg hk', if_neg hk', ih]

theorem alKeys_alModify (m : List (k × v)) (key : k) (f : v → v) :
    alKeys (alModify m key f) = alKeys m := by
  induction m with
  | nil => rfl
  | cons p rest ih =>
    obtain ⟨p1, p2⟩ := p
    rcases eq_or_ne p1 key with hk | hk
    · rw [alModify, if_pos hk]
      simp [alKeys]
    · rw [alModify, if_neg hk]
      simp only [alKeys, List.map_cons] at ih ⊢
      rw [ih]

theorem alNodup_alModify (m : List (k × v)) (key : k) (f : v → v) (hnd : alNodup m) :
    alNodup (alModify m key f) := by
  unfold alNodup
  rw [alKeys_alModify]
  exact hnd

theorem alGet_alModify_self (m : List (k × v)) (key : k) (f : v → v) :
    alGet (alModify m key f) key = (alGet m key).map f := by
  induction m with
  | nil => rfl
  | cons p rest ih =>
    obtain ⟨p1, p2⟩ := p
    rcases eq_or_ne p1 key with hk | hk
    · rw [alModify, if_pos hk, alGet, if_pos hk, alGet, if_pos hk]
      rfl
    · rw [alModify, if_neg hk, alGet, if_neg hk, alGet, if_neg hk, ih]

theorem alGet_alModify_ne (m : List (k × v)) (key key' : k) (f : v → v) (h : key' ≠ key) :
    alGet (alModify m key f) key' = alGet m key' := by
  induction m with
  | nil => rfl
  | cons p rest ih =>
    obtain ⟨p1, p2⟩ := p
    rcases eq_or_ne p1 key with hk | hk
    · rw [alModify, if_pos hk, alGet, alGet, if_neg (hk ▸ fun he => h he.symm),
        if_neg (hk ▸ fun he => h he.symm)]
    · rw [alModify, if_neg hk, alGet, alGet]
      rcases eq_or_ne p1 key' with hk' | hk'
      · rw [if_pos hk', if_pos hk']
      · rw [if_neg hk', if_neg hk', ih]

theorem alNodup_filter (m : List (k × v)) (p : k × v → Bool) (hnd : alNodup m) :
    alNodup (m.filter p) := by
  unfold alNodup alKeys at *
  exact (List.Sublist.map Prod.fst (List.filter_sublist m)).nodup hnd

omit [DecidableEq k] in
theorem alKeys_filter_sub (m : List (k × v)) (p : k × v → Bool) (key : k)
    (h : key ∈ alKeys (m.filter p)) : key ∈ alKeys m := by
  unfold alKeys at *
  rcases List.mem_map.mp h with ⟨q, hq, hq1⟩
  exact List.mem_map.mpr ⟨q, List.mem_of_mem_filter hq, hq1⟩

theorem alGet_filter (m : List (k × v)) (p : k × v → Bool) (key : k) (val : v)
    (hnd : alNodup m) (h : alGet (m.filter p) key = some val) :
    alGet m key = some val ∧ p (key, val) = true := by
  induction m with
  | nil => simp [alGet] at h
  | cons q rest ih =>
    obtain ⟨q1, q2⟩ := q
    simp only [alNodup, alKeys, List.map_cons, List.nodup_cons] at hnd
    rcases eq_or_ne q1 key with hk | hk
    · subst hk
      by_cases hp : p (q1, q2) = true
      · rw [List.filter_cons_of_pos hp, alGet, if_pos rfl] at h
        cases h
        exact ⟨by rw [alGet, if_pos rfl], hp⟩
      · rw [List.filter_cons_of_neg (by simpa using hp)] at h
        exact absurd (alGet_key_mem _ _ _ h)
          (fun hm => hnd.1 (alKeys_filter_sub rest p q1 hm))
    · by_cases hp : p (q1, q2) = true
      · rw [List.filter_cons_of_pos hp, alGet, if_neg hk] at h
        rcases ih hnd.2 h with ⟨h1, h2⟩
        exact ⟨by rw [alGet, if_neg hk]; exact h1, h2⟩
      · rw [List.filter_cons_of_neg (by simpa using hp)] at h
        rcases ih hnd.2 h with ⟨h1, h2⟩
        exact ⟨by rw [alGet, if_neg hk]; exact h1, h2⟩

end AlLemmas

/-! ## The `GroupSets` data model (`src/ai/src/memory/user_groups.rs`) -/

namespace GroupSets

end GroupSets

/-! ## The four invariants of the data model (spec §3) and well-formedness -/

/-! ## Set lemmas -/

section SetLemmas

variable {α : Type _} [DecidableEq α]

theorem mem_setInsert (s : List α) (x y : α) : y ∈ setInsert s x ↔ y ∈ s ∨ y = x := by
  unfold setInsert
  split
  · next h => simp only [List.mem_append, List.mem_singleton, iff_self_or]; rintro rfl; exact h
  · simp

theorem nodup_setInsert (s : List α) (x : α) (h : s.Nodup) : (setInsert s x).Nodup := by
  unfold setInsert
  split
  · exact h
  · next hx => simpa [List.nodup_append] using ⟨h, fun hm => hx hm⟩

theorem mem_setRemove (s : List α) (x y : α) : y ∈ setRemove s x ↔ y ∈ s ∧ y ≠ x := by
  simp [setRemove]

theorem nodup_setRemove (s : List α) (x : α) (h : s.Nodup) : (setRemove s x).Nodup :=
  List.Nodup.filter _ h

theorem mem_foldl_setInsert (l s : List α) (y : α) :
    y ∈ l.foldl setInsert s ↔ y ∈ s ∨ y ∈ l := by
  induction l generalizing s with
  | nil => simp
  | cons a rest ih =>
    rw [List.foldl_cons, ih, mem_setInsert]
    simp only [List.mem_cons]
    tauto

theorem nodup_foldl_setInsert (l s : List α) (h : s.Nodup) : (l.foldl setInsert s).Nodup := by
  induction l generalizing s with
  | nil => exact h
  | cons a rest ih => exact ih _ (nodup_setInsert _ _ h)

end SetLemmas

/-- Members of a merged group: the union of both member sets. -/
theorem mem_merge_members (i o : GroupInfo) (now : Instant) (y : String) :
    y ∈ (i.merge o now).members ↔ y ∈ i.members ∨ y ∈ o.members :=
  mem_foldl_setInsert o.members i.members y

theorem nodup_merge_members (i o : GroupInfo) (now : Instant) (h : i.members.Nodup) :
    (i.merge o now).members.Nodup :=
  nodup_foldl_setInsert o.members i.members h

/-! ## A decidable sufficient condition for `Valid` (used to validate
concrete states) -/

theorem valid_of_checkValid (g : GroupSets) (h : checkValid g = true) : Valid g := by
  unfold checkValid at h
  simp only [Bool.and_eq_true, List.all_eq_true, decide_eq_true_eq] at h
  obtain ⟨⟨⟨hnd1, hnd2⟩, hgr⟩, hutg⟩ := h
  refine ⟨⟨hnd1, hnd2, fun e he => ((hgr e he).1.1.1 : _)⟩, ?_, ?_, ?_, ?_⟩
  · intro user gid hget
    have hmem := alGet_mem _ _ _ hget
    have := hutg _ hmem
    simp only at this
    rcases hg : alGet g.groups gid with _ | info
    · rw [hg] at this; exact absurd this (by simp)
    · rw [hg] at this
      exact ⟨info, rfl, by simpa using this⟩
  · intro gid info hget user huser
    have hmem := alGet_mem _ _ _ hget
    have := ((hgr _ hmem).2 : _) user huser
    simpa using this
  · intro gid info hget
    have hmem := alGet_mem _ _ _ hget
    have := ((hgr _ hmem).1.1.2 : _)
    simpa using this
  · intro gid hgid
    rcases List.mem_map.mp hgid with ⟨e, he, he1⟩
    have := ((hgr e he).1.2 : _)
    exact he1 ▸ this

/-! ## Preservation lemmas for `add_user` -/

namespace GroupSets

theorem add_user_find_pres (g : GroupSets) (u x : String) (now : Instant) (gid : Nat)
    (h : g.find_group x = some gid) : (g.add_user u now).find_group x = some gid := by
  unfold add_user
  split
  · exact h
  · next hc =>
    unfold find_group at h ⊢
    rcases eq_or_ne x u with rfl | hx
    · exact absurd (by simp [alContains, h]) hc
    · rw [alGet_alInsert_ne _ _ _ _ hx]
      exact h

theorem add_user_find_isSome (g : GroupSets) (u : String) (now : Instant) :
    ((g.add_user u now).find_group u).isSome := by
  unfold add_user
  split
  · next hc => simpa [find_group, alContains] using hc
  · simp [find_group, alGet_alInsert_self]

theorem valid_add_user (g : GroupSets) (u : String) (now : Instant) (hv : Valid g) :
    Valid (g.add_user u now) := by
  obtain ⟨⟨hnd1, hnd2, hmem⟩, h1, h2, h3, h4⟩ := hv
  unfold add_user
  split
  · exact ⟨⟨hnd1, hnd2, hmem⟩, h1, h2, h3, h4⟩
  · next hc =>
    have hu : alGet g.user_to_group u = none := by
      rcases hg : alGet g.user_to_group u with _ | gid
      · rfl
      · exact absurd (by simp [alContains, hg]) hc
    have hnextfresh : g.next_group_id ∉ alKeys g.groups := fun hin =>
      absurd (h4 _ hin) (lt_irrefl _)
    refine ⟨⟨alNodup_alInsert _ _ _ hnd1, alNodup_alInsert _ _ _ hnd2, ?_⟩, ?_, ?_, ?_, ?_⟩
    · intro e he
      rcases eq_or_ne (alGet (alInsert g.groups g.next_group_id (GroupInfo.new u now)) e.1)
          (some e.2) with hg | hg
      · rcases eq_or_ne e.1 g.next_group_id with hk | hk
        · rw [hk, alGet_alInsert_self] at hg
          have : e.2 = GroupInfo.new u now := by injection hg.symm
          rw [this]
          simp [GroupInfo.new]
        · rw [alGet_alInsert_ne _ _ _ _ hk] at hg
          exact hmem _ (alGet_mem _ _ _ hg)
      · exact absurd (mem_alGet _ _ _ (alNodup_alInsert _ _ _ hnd2) he) hg
    · intro user gid hget
      rcases eq_or_ne user u with rfl | hx
      · rw [alGet_alInsert_self] at hget
        cases hget
        refine ⟨GroupInfo.new user now, alGet_alInsert_self _ _ _, by simp [GroupInfo.new]⟩
      · rw [alGet_alInsert_ne _ _ _ _ hx] at hget
        obtain ⟨info, hi, hiu⟩ := h1 user gid hget
        have hne : gid ≠ g.next_group_id := by
          intro he
          exact absurd (he ▸ h4 gid (alGet_key_mem _ _ _ hi)) (lt_irrefl _)
        exact ⟨info, by rw [alGet_alInsert_ne _ _ _ _ hne]; exact hi, hiu⟩
    · intro gid info hget user huser
      rcases eq_or_ne gid g.next_group_id with rfl | hk
      · rw [alGet_alInsert_self] at hget
        cases hget
        simp only [GroupInfo.new, List.mem_singleton] at huser
        subst huser
        exact alGet_alInsert_self _ _ _
      · rw [alGet_alInsert_ne _ _ _ _ hk] at hget
        have := h2 gid info hget user huser
        rcases eq_or_ne user u with rfl | hx
        · rw [hu] at this; cases this
        · rw [alGet_alInsert_ne _ _ _ _ hx]
          exact this
    · intro gid info hget
      rcases eq_or_ne gid g.next_group_id with rfl | hk
      · rw [alGet_alInsert_self] at hget
        cases hget
        simp [GroupInfo.new]
      · rw [alGet_alInsert_ne _ _ _ _ hk] at hget
        exact h3 gid info hget
    · intro gid hgid
      rcases mem_alKeys_alInsert _ _ _ _ hgid with hin | rfl
      · exact Nat.lt_succ_of_lt (h4 _ hin)
      · exact Nat.lt_succ_self _

/-- The index after re-pointing every member of the removed group:
members get the surviving group's id, everyone else is untouched. -/
theorem alGet_foldl_alInsert (members : List String) (gid : Nat)
    (utg : List (String × Nat)) (x : String) :
    alGet (members.foldl (fun m member => alInsert m member gid) utg) x =
      if x ∈ members then some gid else alGet utg x := by
  induction members generalizing utg with
  | nil => simp
  | cons a rest ih =>
    rw [List.foldl_cons, ih]
    rcases eq_or_ne x a with rfl | hx
    · by_cases hr : x ∈ rest
      · simp [hr]
      · simp [hr, alGet_alInsert_self]
    · simp only [List.mem_cons]
      by_cases hr : x ∈ rest
      · simp [hr]
      · have : ¬(x = a ∨ x ∈ rest) := by tauto
        simp only [if_neg this, if_neg hr]
        exact alGet_alInsert_ne _ _ _ _ hx

theorem alNodup_foldl_alInsert (members : List String) (gid : Nat)
    (utg : List (String × Nat)) (hnd : alNodup utg) :
    alNodup (members.foldl (fun m member => alInsert m member gid) utg) := by
  induction members generalizing utg with
  | nil => exact hnd
  | cons a rest ih => exact ih _ (alNodup_alInsert _ _ _ hnd)

end GroupSets

section MoreAlLemmas

variable {k : Type _} {v : Type _} [DecidableEq k]

theorem mem_alErase_sub (m : List (k × v)) (key : k) (e : k × v) (h : e ∈ alErase m key) :
    e ∈ m := by
  induction m with
  | nil => simp [alErase] at h
  | cons p rest ih =>
    obtain ⟨p1, p2⟩ := p
    rcases eq_or_ne p1 key with hk | hk
    · rw [alErase, if_pos hk] at h
      exact List.mem_cons_of_mem _ h
    · rw [alErase, if_neg hk] at h
      rcases List.mem_cons.mp h with h | h
      · exact h ▸ List.mem_cons_self _ _
      · exact List.mem_cons_of_mem _ (ih h)

theorem mem_alModify (m : List (k × v)) (key : k) (f : v → v) (e : k × v)
    (h : e ∈ alModify m key f) : e ∈ m ∨ ∃ b, (key, b) ∈ m ∧ e = (key, f b) := by
  induction m with
  | nil => simp [alModify] at h
  | cons p rest ih =>
    obtain ⟨p1, p2⟩ := p
    rcases eq_or_ne p1 key with hk | hk
    · subst hk
      rw [alModify, if_pos rfl] at h
      rcases List.mem_cons.mp h with h | h
      · exact Or.inr ⟨p2, List.mem_cons_self _ _, h⟩
      · exact Or.inl (List.mem_cons_of_mem _ h)
    · rw [alModify, if_neg hk] at h
      rcases List.mem_cons.mp h with h | h
      · exact Or.inl (h ▸ List.mem_cons_self _ _)
      · rcases ih h with h' | ⟨b, hb, he⟩
        · exact Or.inl (List.mem_cons_of_mem _ h')
        · exact Or.inr ⟨b, List.mem_cons_of_mem _ hb, he⟩

end MoreAlLemmas

namespace GroupSets

/-- In a valid state, group membership and the index agree. -/
theorem valid_mem_iff (g : GroupSets) (hv : Valid g) (gid : Nat) (info : GroupInfo)
    (hg : alGet g.groups gid = some info) (u : String) :
    u ∈ info.members ↔ alGet g.user_to_group u = some gid := by
  obtain ⟨_, h1, h2, _, _⟩ := hv
  constructor
  · exact h2 gid info hg u
  · intro hu
    obtain ⟨info', hi', hm'⟩ := h1 u gid hu
    rw [hg] at hi'
    cases hi'
    exact hm'

/-- `union` on a valid state: it completes without panicking, preserves
validity, and transforms the index pointerwise — a user pointing at the
removed second group is re-pointed at the first group, everyone else keeps
their pointer (taken after the two implicit `add_user` calls). -/
theorem union_spec (g : GroupSets) (u1 u2 : String) (now : Instant) (hv : Valid g) :
    ∃ g', g.union u1 u2 now = some g' ∧ Valid g' ∧
      (∀ x, g'.find_group x =
        (let ga := (g.add_user u1 now).add_user u2 now
         if ga.find_group x = ga.find_group u2 ∧ ga.find_group u1 ≠ ga.find_group u2
         then ga.find_group u1 else ga.find_group x)) := by
  have hva : Valid ((g.add_user u1 now).add_user u2 now) :=
    valid_add_user _ _ _ (valid_add_user _ _ _ hv)
  set ga := (g.add_user u1 now).add_user u2 now with hga
  obtain ⟨gid2, hg2⟩ :=
    Option.isSome_iff_exists.mp (add_user_find_isSome (g.add_user u1 now) u2 now)
  obtain ⟨gid1', hg1'⟩ := Option.isSome_iff_exists.mp (add_user_find_isSome g u1 now)
  have hg1 : ga.find_group u1 = some gid1' := add_user_find_pres _ _ _ _ _ hg1'
  have hg2' : ga.find_group u2 = some gid2 := hg2
  have hstep : g.union u1 u2 now =
      (match ga.find_group u1, ga.find_group u2 with
       | some group1_id, some group2_id =>
         if group1_id = group2_id then some ga
         else
           match alGet ga.groups group2_id with
           | none => none
           | some group2 =>
             match alGet (alErase ga.groups group2_id) group1_id with
             | none => none
             | some _ =>
               some { user_to_group :=
                        group2.members.foldl
                          (fun m member => alInsert m member group1_id) ga.user_to_group,
                      groups := alModify (alErase ga.groups group2_id) group1_id
                        (fun i => i.merge group2 now),
                      next_group_id := ga.next_group_id }
       | _, _ => none) := rfl
  rw [hstep, hg1, hg2']
  dsimp only
  rcases eq_or_ne gid1' gid2 with rfl | hne
  · refine ⟨ga, by rw [if_pos rfl], hva, fun x => ?_⟩
    rw [if_neg (by rw [hg1, hg2']; simp)]
  · rw [if_neg hne]
    obtain ⟨group2, hgr2, hm2⟩ := hva.2.1 u2 gid2 hg2'
    obtain ⟨info1, hgr1, hm1⟩ := hva.2.1 u1 gid1' hg1
    have hnd2 : alNodup ga.groups := hva.1.2.1
    have hgr1e : alGet (alErase ga.groups gid2) gid1' = some info1 := by
      rw [alGet_alErase_ne _ _ _ hne]; exact hgr1
    rw [hgr2, hgr1e]
    have hmem_iff : ∀ x, x ∈ group2.members ↔ ga.find_group x = some gid2 :=
      fun x => valid_mem_iff ga hva gid2 group2 hgr2 x
    set utg1 := group2.members.foldl (fun m member => alInsert m member gid1')
      ga.user_to_group with hutg1
    set groups' := alModify (alErase ga.groups gid2) gid1' (fun i => i.merge group2 now)
      with hgroups'
    have hfind : ∀ x, alGet utg1 x =
        if x ∈ group2.members then some gid1' else ga.find_group x := by
      intro x
      rw [hutg1, alGet_foldl_alInsert]
      rfl
    have hget1 : alGet groups' gid1' = some (info1.merge group2 now) := by
      rw [hgroups', alGet_alModify_self, hgr1e]
      rfl
    have hget_other : ∀ gid, gid ≠ gid1' → gid ≠ gid2 →
        alGet groups' gid = alGet ga.groups gid := by
      intro gid hne1 hne2
      rw [hgroups', alGet_alModify_ne _ _ _ _ hne1, alGet_alErase_ne _ _ _ hne2]
    have hget2 : alGet groups' gid2 = none := by
      rw [hgroups', alGet_alModify_ne _ _ _ _ (Ne.symm hne), alGet_alErase_self _ _ hnd2]
    refine ⟨_, rfl, ?_, fun x => ?_⟩
    · -- Validity of the merged state
      refine ⟨⟨alNodup_foldl_alInsert _ _ _ hva.1.1,
               alNodup_alModify _ _ _ (alNodup_alErase _ _ hnd2), ?_⟩, ?_, ?_, ?_, ?_⟩
      · intro e he
        rcases mem_alModify _ _ _ _ he with he' | ⟨b, hb, hee⟩
        · exact hva.1.2.2 e (mem_alErase_sub _ _ _ he')
        · have hb' : b = info1 := by
            have := mem_alGet _ _ _ (alNodup_alErase _ _ hnd2) hb
            rw [hgr1e] at this
            injection this.symm
          rw [hee, hb']
          exact nodup_merge_members _ _ _ (hva.1.2.2 _ (alGet_mem _ _ _ hgr1))
      · -- Inv1
        intro user gid hget
        dsimp only at hget ⊢
        rw [hfind] at hget
        by_cases hm : user ∈ group2.members
        · rw [if_pos hm] at hget
          cases hget
          exact ⟨info1.merge group2 now, hget1, (mem_merge_members _ _ _ _).mpr (Or.inr hm)⟩
        · rw [if_neg hm] at hget
          obtain ⟨info, hi, hiu⟩ := hva.2.1 user gid hget
          have hgid2 : gid ≠ gid2 := by
            rintro rfl
            rw [hgr2] at hi
            cases hi
            exact hm hiu
          rcases eq_or_ne gid gid1' with rfl | hgid1
          · have hinfo : info = info1 := by
              rw [hgr1] at hi
              injection hi with h
              exact h.symm
            refine ⟨info1.merge group2 now, hget1, (mem_merge_members _ _ _ _).mpr ?_⟩
            exact Or.inl (hinfo ▸ hiu)
          · exact ⟨info, by rw [hget_other gid hgid1 hgid2]; exact hi, hiu⟩
      · -- Inv2
        intro gid info hget user huser
        dsimp only at hget ⊢
        rcases eq_or_ne gid gid1' with rfl | hne1
        · rw [hget1] at hget
          cases hget
          rcases (mem_merge_members _ _ _ _).mp huser with hL | hR
          · have hfa := hva.2.2.1 _ info1 hgr1 user hL
            rw [hfind]
            by_cases hm : user ∈ group2.members
            · rw [if_pos hm]
            · rw [if_neg hm]
              exact hfa
          · rw [hfind, if_pos hR]
        · rcases eq_or_ne gid gid2 with rfl | hne2
          · rw [hget2] at hget
            cases hget
          · rw [hget_other gid hne1 hne2] at hget
            have hfa := hva.2.2.1 gid info hget user huser
            rw [hfind]
            by_cases hm : user ∈ group2.members
            · have h2' : ga.find_group user = some gid2 := (hmem_iff user).mp hm
              have : gid2 = gid := by
                have := h2'.symm.trans hfa
                injection this
              exact absurd this.symm hne2
            · rw [if_neg hm]
              exact hfa
      · -- Inv3
        intro gid info hget
        dsimp only at hget
        rcases eq_or_ne gid gid1' with rfl | hne1
        · rw [hget1] at hget
          cases hget
          intro hEmpty
          have hu1m : u1 ∈ (info1.merge group2 now).members :=
            (mem_merge_members _ _ _ _).mpr (Or.inl hm1)
          rw [hEmpty] at hu1m
          exact List.not_mem_nil _ hu1m
        · rcases eq_or_ne gid gid2 with rfl | hne2
          · rw [hget2] at hget
            cases hget
          · rw [hget_other gid hne1 hne2] at hget
            exact hva.2.2.2.1 gid info hget
      · -- Inv4
        intro gid hgid
        dsimp only at hgid ⊢
        rw [alKeys_alModify] at hgid
        exact hva.2.2.2.2 gid (alKeys_alErase_sub _ _ _ hgid)
    · -- pointer transformation
      show alGet utg1 x = _
      dsimp only
      rw [hfind x, hg1, hg2']
      have hne' : some gid1' ≠ some gid2 := by simpa using hne
      by_cases hm : x ∈ group2.members
      · rw [if_pos hm, if_pos ⟨(hmem_iff x).mp hm, hne'⟩]
      · rw [if_neg hm, if_neg ?_]
        rintro ⟨hc, -⟩
        exact hm ((hmem_iff x).mpr hc)

/-- `remove_user` on a valid state preserves validity. -/
theorem valid_remove_user (g : GroupSets) (u : String) (now : Instant) (hv : Valid g) :
    Valid (g.remove_user u now) := by
  obtain ⟨⟨hnd1, hnd2, hmem⟩, h1, h2, h3, h4⟩ := hv
  unfold remove_user
  rcases hf : g.find_group u with _ | gid
  · exact ⟨⟨hnd1, hnd2, hmem⟩, h1, h2, h3, h4⟩
  obtain ⟨info, hinfo, humem⟩ := h1 u gid hf
  dsimp only
  rw [hinfo]
  dsimp only
  have hu_erase : alGet (alErase g.user_to_group u) u = none := alGet_alErase_self _ _ hnd1
  have hfget : alGet g.user_to_group u = some gid := hf
  have hinfond : info.members.Nodup := hmem _ (alGet_mem _ _ _ hinfo)
  by_cases hE : (setRemove info.members u).isEmpty
  · rw [if_pos hE]
    have hall : ∀ v, v ∈ info.members → v = u := by
      intro v hvmem
      by_contra hvu
      have : v ∈ setRemove info.members u := (mem_setRemove _ _ _).mpr ⟨hvmem, hvu⟩
      rw [List.isEmpty_iff.mp hE] at this
      exact List.not_mem_nil _ this
    refine valid_add_user _ _ _ ⟨⟨alNodup_alErase _ _ hnd1, alNodup_alErase _ _ hnd2,
      fun e he => hmem e (mem_alErase_sub _ _ _ he)⟩, ?_, ?_, ?_, ?_⟩
    · intro v gid' hget
      have hvu : v ≠ u := by
        rintro rfl
        rw [hu_erase] at hget
        cases hget
      rw [alGet_alErase_ne _ _ _ hvu] at hget
      obtain ⟨info', hi', hm'⟩ := h1 v gid' hget
      have hgid' : gid' ≠ gid := by
        rintro rfl
        rw [hinfo] at hi'
        cases hi'
        exact hvu (hall v hm')
      exact ⟨info', by rw [alGet_alErase_ne _ _ _ hgid']; exact hi', hm'⟩
    · intro gid' info' hget v hvmem
      have hgid' : gid' ≠ gid := by
        rintro rfl
        rw [alGet_alErase_self _ _ hnd2] at hget
        cases hget
      rw [alGet_alErase_ne _ _ _ hgid'] at hget
      have hvy := h2 gid' info' hget v hvmem
      have hvu : v ≠ u := by
        rintro rfl
        rw [hfget] at hvy
        cases hvy
        exact hgid' rfl
      rw [alGet_alErase_ne _ _ _ hvu]
      exact hvy
    · intro gid' info' hget
      have hgid' : gid' ≠ gid := by
        rintro rfl
        rw [alGet_alErase_self _ _ hnd2] at hget
        cases hget
      rw [alGet_alErase_ne _ _ _ hgid'] at hget
      exact h3 gid' info' hget
    · intro gid' hgid'
      exact h4 gid' (alKeys_alErase_sub _ _ _ hgid')
  · rw [if_neg hE]
    have hne_empty : setRemove info.members u ≠ [] := by
      intro hc
      rw [hc] at hE
      exact hE rfl
    refine valid_add_user _ _ _ ⟨⟨alNodup_alErase _ _ hnd1, alNodup_alModify _ _ _ hnd2, ?_⟩,
      ?_, ?_, ?_, ?_⟩
    · intro e he
      rcases mem_alModify _ _ _ _ he with he' | ⟨b, hb, hee⟩
      · exact hmem e he'
      · rw [hee]
        exact nodup_setRemove _ _ hinfond
    · intro v gid' hget
      have hvu : v ≠ u := by
        rintro rfl
        rw [hu_erase] at hget
        cases hget
      rw [alGet_alErase_ne _ _ _ hvu] at hget
      obtain ⟨info', hi', hm'⟩ := h1 v gid' hget
      rcases eq_or_ne gid' gid with rfl | hgid'
      · have : info' = info := by
          rw [hinfo] at hi'
          injection hi' with h
          exact h.symm
        subst this
        refine ⟨_, by rw [alGet_alModify_self, hinfo]; rfl, ?_⟩
        exact (mem_setRemove _ _ _).mpr ⟨hm', hvu⟩
      · exact ⟨info', by rw [alGet_alModify_ne _ _ _ _ hgid']; exact hi', hm'⟩
    · intro gid' info' hget v hvmem
      rcases eq_or_ne gid' gid with rfl | hgid'
      · rw [alGet_alModify_self, hinfo] at hget
        cases hget
        obtain ⟨hvmem', hvu⟩ := (mem_setRemove _ _ _).mp hvmem
        rw [alGet_alErase_ne _ _ _ hvu]
        exact h2 gid' info hinfo v hvmem'
      · rw [alGet_alModify_ne _ _ _ _ hgid'] at hget
        have hvy := h2 gid' info' hget v hvmem
        have hvu : v ≠ u := by
          rintro rfl
          rw [hfget] at hvy
          cases hvy
          exact hgid' rfl
        rw [alGet_alErase_ne _ _ _ hvu]
        exact hvy
    · intro gid' info' hget
      rcases eq_or_ne gid' gid with rfl | hgid'
      · rw [alGet_alModify_self, hinfo] at hget
        cases hget
        exact hne_empty
      · rw [alGet_alModify_ne _ _ _ _ hgid'] at hget
        exact h3 gid' info' hget
    · intro gid' hgid'
      rw [alKeys_alModify] at hgid'
      exact h4 gid' hgid'

/-- `remove_user` on a valid state: the user lands in a fresh singleton group
whose id differs from the former one, and the remaining former members stay
together in the former group. -/
theorem remove_user_spec (g : GroupSets) (u : String) (now : Instant) (hv : Valid g)
    (gid : Nat) (info : GroupInfo) (hfind : g.find_group u = some gid)
    (hinfo : alGet g.groups gid = some info) :
    (g.remove_user u now).find_group u = some g.next_group_id ∧
    g.next_group_id ≠ gid ∧
    alGet (g.remove_user u now).groups g.next_group_id = some (GroupInfo.new u now) ∧
    (∀ v w, v ∈ info.members → w ∈ info.members → v ≠ u → w ≠ u →
      ∃ info', alGet (g.remove_user u now).groups gid = some info' ∧
        v ∈ info'.members ∧ w ∈ info'.members) := by
  obtain ⟨⟨hnd1, hnd2, hmem⟩, h1, h2, h3, h4⟩ := hv
  have hgid_lt : gid < g.next_group_id := h4 gid (alGet_key_mem _ _ _ hinfo)
  have hgid_ne : g.next_group_id ≠ gid := fun he => absurd (he ▸ hgid_lt) (lt_irrefl _)
  have hu_erase : alGet (alErase g.user_to_group u) u = none := alGet_alErase_self _ _ hnd1
  have hcontains : alContains (alErase g.user_to_group u) u = false := by
    simp [alContains, hu_erase]
  unfold remove_user
  rw [hfind]
  dsimp only
  rw [hinfo]
  dsimp only
  by_cases hE : (setRemove info.members u).isEmpty
  · rw [if_pos hE]
    unfold add_user
    rw [hcontains]
    rw [if_neg Bool.false_ne_true]
    refine ⟨alGet_alInsert_self _ _ _, hgid_ne, alGet_alInsert_self _ _ _, ?_⟩
    intro v w hvm hwm hvu _
    exact absurd ((mem_setRemove info.members u v).mpr ⟨hvm, hvu⟩)
      (by rw [List.isEmpty_iff.mp hE]; exact List.not_mem_nil v)
  · rw [if_neg hE]
    unfold add_user
    rw [hcontains]
    rw [if_neg Bool.false_ne_true]
    refine ⟨alGet_alInsert_self _ _ _, hgid_ne, alGet_alInsert_self _ _ _, ?_⟩
    intro v w hvm hwm hvu hwu
    refine ⟨{ members := setRemove info.members u, last_modified := now }, ?_, ?_, ?_⟩
    · rw [alGet_alInsert_ne _ _ _ _ (Ne.symm hgid_ne), alGet_alModify_self, hinfo]
      rfl
    · exact (mem_setRemove _ _ _).mpr ⟨hvm, hvu⟩
    · exact (mem_setRemove _ _ _).mpr ⟨hwm, hwu⟩

end GroupSets

/-! ## Operation sequences (for the fuzz-style invariant claim) -/

/-- The empty state is valid. -/
theorem valid_gsEmpty : Valid gsEmpty := by
  refine ⟨⟨List.nodup_nil, List.nodup_nil, by intro e he; simp [gsEmpty] at he⟩, ?_, ?_, ?_, ?_⟩
  · intro user gid hget
    simp [gsEmpty, alGet] at hget
  · intro gid info hget
    simp [gsEmpty, alGet] at hget
  · intro gid info hget
    simp [gsEmpty, alGet] at hget
  · intro gid hgid
    simp [gsEmpty, alKeys] at hgid

/-- Every operation sequence from a valid state completes without panicking
and ends in a valid state. -/
theorem run_valid (ops : List (Op × Instant)) (g : GroupSets) (hv : Valid g) :
    ∃ s, run g ops = some s ∧ Valid s := by
  induction ops generalizing g with
  | nil => exact ⟨g, rfl, hv⟩
  | cons p rest ih =>
    obtain ⟨op, now⟩ := p
    cases op with
    | addUser u =>
      obtain ⟨s, hs, hvs⟩ := ih (g.add_user u now) (GroupSets.valid_add_user g u now hv)
      exact ⟨s, by rw [run, applyOp]; exact hs, hvs⟩
    | unionUsers u1 u2 =>
      obtain ⟨g', hg', hvg', _⟩ := GroupSets.union_spec g u1 u2 now hv
      obtain ⟨s, hs, hvs⟩ := ih g' hvg'
      refine ⟨s, ?_, hvs⟩
      rw [run]
      dsimp only [applyOp]
      rw [hg']
      exact hs
    | removeUser u =>
      obtain ⟨s, hs, hvs⟩ := ih (g.remove_user u now) (GroupSets.valid_remove_user g u now hv)
      exact ⟨s, by rw [run, applyOp]; exact hs, hvs⟩

/-! ## Characterization of the `from_maps` repair pass -/

section MapValLemmas

variable {k : Type _} {v : Type _} {w : Type _} [DecidableEq k]

theorem alGet_map_snd (m : List (k × v)) (G : v → w) (key : k) :
    alGet (m.map (fun e => (e.1, G e.2))) key = (alGet m key).map G := by
  induction m with
  | nil => rfl
  | cons p rest ih =>
    obtain ⟨p1, p2⟩ := p
    rcases eq_or_ne p1 key with hk | hk
    · simp only [List.map_cons, alGet, if_pos hk]
      rfl
    · simp only [List.map_cons, alGet, if_neg hk]
      exact ih

omit [DecidableEq k] in
theorem alKeys_map_snd (m : List (k × v)) (G : v → w) :
    alKeys (m.map (fun e => (e.1, G e.2))) = alKeys m := by
  unfold alKeys
  rw [List.map_map]
  rfl

theorem alGet_filter_of (m : List (k × v)) (p : k × v → Bool) (key : k) (val : v)
    (h : alGet m key = some val) (hp : p (key, val) = true) :
    alGet (m.filter p) key = some val := by
  induction m with
  | nil => simp [alGet] at h
  | cons q rest ih =>
    obtain ⟨q1, q2⟩ := q
    rcases eq_or_ne q1 key with hk | hk
    · subst hk
      rw [alGet, if_pos rfl] at h
      cases h
      rw [List.filter_cons_of_pos hp, alGet, if_pos rfl]
    · rw [alGet, if_neg hk] at h
      by_cases hq : p (q1, q2) = true
      · rw [List.filter_cons_of_pos hq, alGet, if_neg hk]
        exact ih h
      · rw [List.filter_cons_of_neg (by simpa using hq)]
        exact ih h

end MapValLemmas

namespace GroupSets

theorem foldl_pair_decomp (gid : Nat) (members : List String)
    (acc : List String × List (String × Nat)) :
    members.foldl
      (fun (acc2 : List String × List (String × Nat)) user =>
        (setInsert acc2.1 user,
         if alGet acc2.2 user = some gid then acc2.2 else alInsert acc2.2 user gid)) acc =
      (members.foldl setInsert acc.1,
       members.foldl
         (fun m2 u => if alGet m2 u = some gid then m2 else alInsert m2 u gid) acc.2) := by
  induction members generalizing acc with
  | nil => rfl
  | cons a rest ih =>
    rw [List.foldl_cons, List.foldl_cons, List.foldl_cons, ih]

theorem passStep_decomp (e : Nat × GroupInfo) (acc : List String × List (String × Nat)) :
    passStep acc e =
      (e.2.members.foldl setInsert acc.1,
       e.2.members.foldl
         (fun m2 u => if alGet m2 u = some e.1 then m2 else alInsert m2 u e.1) acc.2) :=
  foldl_pair_decomp e.1 e.2.members acc

theorem foldl_fix_get (gid : Nat) (members : List String) (m : List (String × Nat))
    (x : String) :
    alGet (members.foldl
      (fun m2 u => if alGet m2 u = some gid then m2 else alInsert m2 u gid) m) x =
      if x ∈ members then some gid else alGet m x := by
  induction members generalizing m with
  | nil => simp
  | cons a rest ih =>
    rw [List.foldl_cons, ih]
    rcases eq_or_ne x a with rfl | hx
    · by_cases hr : x ∈ rest
      · simp [hr]
      · simp only [hr, if_false, List.mem_cons, true_or, if_true]
        by_cases hc : alGet m x = some gid
        · rw [if_pos hc]
          exact hc
        · rw [if_neg hc]
          exact alGet_alInsert_self _ _ _
    · simp only [List.mem_cons]
      by_cases hr : x ∈ rest
      · simp [hr]
      · have hno : ¬(x = a ∨ x ∈ rest) := by tauto
        rw [if_neg hno, if_neg hr]
        by_cases hc : alGet m a = some gid
        · rw [if_pos hc]
        · rw [if_neg hc]
          exact alGet_alInsert_ne _ _ _ _ hx

theorem foldl_fix_nodup (gid : Nat) (members : List String) (m : List (String × Nat))
    (hnd : alNodup m) :
    alNodup (members.foldl
      (fun m2 u => if alGet m2 u = some gid then m2 else alInsert m2 u gid) m) := by
  induction members generalizing m with
  | nil => exact hnd
  | cons a rest ih =>
    rw [List.foldl_cons]
    apply ih
    by_cases hc : alGet m a = some gid
    · rw [if_pos hc]; exact hnd
    · rw [if_neg hc]; exact alNodup_alInsert _ _ _ hnd

theorem foldl_fix_id (gid : Nat) (members : List String) (m : List (String × Nat))
    (h : ∀ u ∈ members, alGet m u = some gid) :
    members.foldl
      (fun m2 u => if alGet m2 u = some gid then m2 else alInsert m2 u gid) m = m := by
  induction members with
  | nil => rfl
  | cons a rest ih =>
    rw [List.foldl_cons, if_pos (h a (List.mem_cons_self _ _))]
    exact ih (fun u hu => h u (List.mem_cons_of_mem _ hu))

theorem pass_snd_get (groups : List (Nat × GroupInfo))
    (acc : List String × List (String × Nat)) (x : String) :
    alGet (groups.foldl passStep acc).2 x =
      match lastGroupOf groups x with
      | some gid => some gid
      | none => alGet acc.2 x := by
  induction groups generalizing acc with
  | nil => rfl
  | cons e rest ih =>
    rw [List.foldl_cons, ih, lastGroupOf]
    rcases hl : lastGroupOf rest x with _ | gid
    · rw [passStep_decomp]
      dsimp only
      rw [foldl_fix_get]
      by_cases hm : x ∈ e.2.members
      · rw [if_pos hm, if_pos hm]
      · rw [if_neg hm, if_neg hm]
    · rfl

theorem pass_fst_mem (groups : List (Nat × GroupInfo))
    (acc : List String × List (String × Nat)) (x : String) :
    x ∈ (groups.foldl passStep acc).1 ↔ x ∈ acc.1 ∨ ∃ e ∈ groups, x ∈ e.2.members := by
  induction groups generalizing acc with
  | nil => simp
  | cons e rest ih =>
    rw [List.foldl_cons, ih, passStep_decomp]
    dsimp only
    rw [mem_foldl_setInsert]
    constructor
    · rintro ((h | h) | ⟨e', he', hm⟩)
      · exact Or.inl h
      · exact Or.inr ⟨e, List.mem_cons_self _ _, h⟩
      · exact Or.inr ⟨e', List.mem_cons_of_mem _ he', hm⟩
    · rintro (h | ⟨e', he', hm⟩)
      · exact Or.inl (Or.inl h)
      · rcases List.mem_cons.mp he' with rfl | he''
        · exact Or.inl (Or.inr hm)
        · exact Or.inr ⟨e', he'', hm⟩

theorem pass_snd_nodup (groups : List (Nat × GroupInfo))
    (acc : List String × List (String × Nat)) (hnd : alNodup acc.2) :
    alNodup (groups.foldl passStep acc).2 := by
  induction groups generalizing acc with
  | nil => exact hnd
  | cons e rest ih =>
    rw [List.foldl_cons]
    apply ih
    rw [passStep_decomp]
    exact foldl_fix_nodup _ _ _ hnd

theorem pass_snd_id (groups : List (Nat × GroupInfo))
    (acc : List String × List (String × Nat))
    (h : ∀ e ∈ groups, ∀ u ∈ e.2.members, alGet acc.2 u = some e.1) :
    (groups.foldl passStep acc).2 = acc.2 := by
  induction groups generalizing acc with
  | nil => rfl
  | cons e rest ih =>
    rw [List.foldl_cons]
    have hstep : (passStep acc e).2 = acc.2 := by
      rw [passStep_decomp]
      exact foldl_fix_id _ _ _ (h e (List.mem_cons_self _ _))
    rw [ih (passStep acc e) (by rw [hstep]; exact fun e' he' => h e' (List.mem_cons_of_mem _ he'))]
    exact hstep

theorem lastGroupOf_some (groups : List (Nat × GroupInfo)) (x : String) (gid : Nat)
    (h : lastGroupOf groups x = some gid) :
    ∃ info, (gid, info) ∈ groups ∧ x ∈ info.members := by
  induction groups with
  | nil => simp [lastGroupOf] at h
  | cons e rest ih =>
    rw [lastGroupOf] at h
    rcases hl : lastGroupOf rest x with _ | gid'
    · rw [hl] at h
      by_cases hm : x ∈ e.2.members
      · rw [if_pos hm] at h
        cases h
        exact ⟨e.2, by rw [← Prod.mk.eta (p := e)]; exact List.mem_cons_self _ _, hm⟩
      · rw [if_neg hm] at h
        cases h
    · rw [hl] at h
      cases h
      obtain ⟨info, hmem, hx⟩ := ih hl
      exact ⟨info, List.mem_cons_of_mem _ hmem, hx⟩

theorem lastGroupOf_isSome (groups : List (Nat × GroupInfo)) (x : String)
    (h : ∃ e ∈ groups, x ∈ e.2.members) : ∃ gid, lastGroupOf groups x = some gid := by
  induction groups with
  | nil => simp at h
  | cons e rest ih =>
    rw [lastGroupOf]
    rcases hl : lastGroupOf rest x with _ | gid'
    · obtain ⟨e', he', hm⟩ := h
      rcases List.mem_cons.mp he' with rfl | he''
      · rw [if_pos hm]
        exact ⟨e'.1, rfl⟩
      · obtain ⟨gid, hgid⟩ := ih ⟨e', he'', hm⟩
        rw [hgid] at hl
        cases hl
    · exact ⟨gid', rfl⟩

theorem lt_nextIdOf (groups : List (Nat × GroupInfo)) (gid : Nat) (h : gid ∈ alKeys groups) :
    gid < nextIdOf groups := by
  unfold nextIdOf
  cases hm : (alKeys groups).maximum with
  | bot =>
    have hnil : alKeys groups = [] := List.maximum_eq_none.mp hm
    rw [hnil] at h
    cases h
  | coe m =>
    have hle : gid ≤ m := List.le_maximum_of_mem h hm
    exact Nat.lt_succ_of_le hle

/-- `from_maps` establishes structural well-formedness and invariants 1, 3
and 4 on every pair of raw input maps. -/
theorem from_maps_props (utg : List (String × Nat)) (groups : List (Nat × GroupInfo))
    (hnd1 : alNodup utg) (hnd2 : alNodup groups)
    (hmems : ∀ e ∈ groups, e.2.members.Nodup) :
    WF (from_maps utg groups) ∧ Inv1 (from_maps utg groups) ∧
      Inv3 (from_maps utg groups) ∧ Inv4 (from_maps utg groups) := by
  set utg1 := utg.filter (fun p => alContains groups p.2) with hutg1
  set utg2 := (fromMapsPass groups utg1).2 with hutg2
  set uig := (fromMapsPass groups utg1).1 with huig
  set utg3 := utg2.filter (fun p => decide (p.1 ∈ uig)) with hutg3
  set G : GroupInfo → GroupInfo :=
    fun info => { info with members := info.members.filter (fun u => alContains utg3 u) }
    with hG
  set groups2 := groups.map (fun e => (e.1, G e.2)) with hgroups2
  set groups3 := groups2.filter (fun e => decide (¬e.2.members.isEmpty)) with hgroups3
  have hfm : from_maps utg groups =
      { user_to_group := utg3, groups := groups3, next_group_id := nextIdOf groups3 } := rfl
  have hnd_utg1 : alNodup utg1 := alNodup_filter _ _ hnd1
  have hnd_utg2 : alNodup utg2 := pass_snd_nodup groups ([], utg1) hnd_utg1
  have hnd_utg3 : alNodup utg3 := alNodup_filter _ _ hnd_utg2
  have hnd_groups2 : alNodup groups2 := by
    unfold alNodup
    rw [hgroups2, alKeys_map_snd]
    exact hnd2
  have hnd_groups3 : alNodup groups3 := alNodup_filter _ _ hnd_groups2
  have hkey_inv1 : ∀ u gid, alGet utg3 u = some gid →
      ∃ info, alGet groups3 gid = some info ∧ u ∈ info.members := by
    intro u gid hget
    obtain ⟨hget2, hdec⟩ := alGet_filter utg2 _ u gid hnd_utg2 hget
    have huig_mem : u ∈ uig := of_decide_eq_true hdec
    have hex : ∃ e ∈ groups, u ∈ e.2.members := by
      have := (pass_fst_mem groups ([], utg1) u).mp huig_mem
      rcases this with h | h
      · cases h
      · exact h
    obtain ⟨gid0, hlast⟩ := lastGroupOf_isSome groups u hex
    have hgid0 : gid0 = gid := by
      have hsnd : alGet utg2 u =
          (match lastGroupOf groups u with
           | some gid' => some gid'
           | none => alGet utg1 u) := pass_snd_get groups ([], utg1) u
      rw [hlast] at hsnd
      dsimp only at hsnd
      rw [hsnd] at hget2
      injection hget2 with h
    subst hgid0
    obtain ⟨info, hin, hx⟩ := lastGroupOf_some groups u gid0 hlast
    have hginfo : alGet groups gid0 = some info := mem_alGet _ _ _ hnd2 hin
    have hget2' : alGet groups2 gid0 = some (G info) := by
      rw [hgroups2, alGet_map_snd, hginfo]
      rfl
    have humem : u ∈ (G info).members := by
      rw [hG]
      refine List.mem_filter.mpr ⟨hx, ?_⟩
      simp [alContains, hget]
    have hsurv : alGet groups3 gid0 = some (G info) := by
      refine alGet_filter_of groups2 _ gid0 (G info) hget2' ?_
      have hne : (G info).members ≠ [] := fun hc => by
        rw [hc] at humem
        exact List.not_mem_nil _ humem
      simp only [decide_eq_true_eq]
      intro hc
      exact hne (List.isEmpty_iff.mp hc)
    exact ⟨G info, hsurv, humem⟩
  rw [hfm]
  refine ⟨⟨hnd_utg3, hnd_groups3, ?_⟩, ?_, ?_, ?_⟩
  · intro e he
    have he2 := List.mem_of_mem_filter he
    rw [hgroups2] at he2
    obtain ⟨a, ha, hae⟩ := List.mem_map.mp he2
    rw [← hae, hG]
    exact List.Nodup.filter _ (hmems a ha)
  · exact hkey_inv1
  · intro gid info hget
    obtain ⟨hget2, hdec⟩ := alGet_filter groups2 _ gid info hnd_groups2 hget
    simp only [decide_eq_true_eq] at hdec
    intro hc
    exact hdec (by rw [hc]; rfl)
  · intro gid hgid
    exact lt_nextIdOf groups3 gid hgid

/-- Consequences of `union` on a valid state: validity, the two users end up
with the same (existing) pointer, and users that shared a pointer before
still share one after. -/
theorem union_post (g : GroupSets) (u1 u2 : String) (now : Instant) (hv : Valid g)
    (s' : GroupSets) (h : g.union u1 u2 now = some s') :
    Valid s' ∧ s'.find_group u1 = s'.find_group u2 ∧ (s'.find_group u1).isSome ∧
    (∀ x y, g.find_group x = g.find_group y → (g.find_group x).isSome →
      s'.find_group x = s'.find_group y) := by
  obtain ⟨g', hg', hvg', hchar⟩ := union_spec g u1 u2 now hv
  rw [h] at hg'
  injection hg' with hg'
  subst hg'
  set ga := (g.add_user u1 now).add_user u2 now with hga
  obtain ⟨gid1, hg1'⟩ := Option.isSome_iff_exists.mp (add_user_find_isSome g u1 now)
  have hg1 : ga.find_group u1 = some gid1 := add_user_find_pres _ _ _ _ _ hg1'
  have hfind1 : s'.find_group u1 = ga.find_group u1 := by
    rw [hchar u1]
    dsimp only
    rw [if_neg]
    rintro ⟨he, hne⟩
    exact hne he
  have hfind2 : s'.find_group u2 = ga.find_group u1 := by
    rw [hchar u2]
    dsimp only
    by_cases hne : ga.find_group u1 ≠ ga.find_group u2
    · rw [if_pos ⟨rfl, hne⟩]
    · rw [if_neg (fun hc => hne hc.2)]
      push_neg at hne
      exact hne.symm
  refine ⟨hvg', by rw [hfind1, hfind2], by rw [hfind1, hg1]; rfl, ?_⟩
  intro x y hxy hsome
  obtain ⟨p, hp⟩ := Option.isSome_iff_exists.mp hsome
  have hax : ga.find_group x = some p :=
    add_user_find_pres _ _ _ _ _ (add_user_find_pres _ _ _ _ _ hp)
  have hay : ga.find_group y = some p := by
    rw [hxy] at hp
    exact add_user_find_pres _ _ _ _ _ (add_user_find_pres _ _ _ _ _ hp)
  rw [hchar x, hchar y]
  dsimp only
  rw [hax, hay]

/-- `from_maps` on the projection of a valid state returns the same index
and the same groups; only the allocator is reset to one past the maximum
surviving group id. -/
theorem from_maps_idem (g : GroupSets) (hv : Valid g) :
    from_maps g.user_to_group g.groups =
      { user_to_group := g.user_to_group, groups := g.groups,
        next_group_id := nextIdOf g.groups } := by
  obtain ⟨⟨hnd1, hnd2, hmems⟩, h1, h2, h3, h4⟩ := hv
  have hutg1 : g.user_to_group.filter (fun p => alContains g.groups p.2) = g.user_to_group := by
    rw [List.filter_eq_self]
    intro p hp
    obtain ⟨info, hinfo, _⟩ := h1 p.1 p.2 (mem_alGet _ _ _ hnd1 hp)
    simp [alContains, hinfo]
  have hutg2 : (fromMapsPass g.groups g.user_to_group).2 = g.user_to_group := by
    apply pass_snd_id
    intro e he u hu
    exact h2 e.1 e.2 (mem_alGet _ _ _ hnd2 he) u hu
  have huig : ∀ p, p ∈ g.user_to_group →
      p.1 ∈ (fromMapsPass g.groups g.user_to_group).1 := by
    intro p hp
    refine (pass_fst_mem g.groups ([], g.user_to_group) p.1).mpr ?_
    obtain ⟨info, hinfo, hm⟩ := h1 p.1 p.2 (mem_alGet _ _ _ hnd1 hp)
    exact Or.inr ⟨(p.2, info), alGet_mem _ _ _ hinfo, hm⟩
  have hutg3 :
      (fromMapsPass g.groups g.user_to_group).2.filter
        (fun p => decide (p.1 ∈ (fromMapsPass g.groups g.user_to_group).1)) =
        g.user_to_group := by
    rw [hutg2, List.filter_eq_self]
    intro p hp
    exact decide_eq_true (huig p hp)
  have hgroups2 :
      g.groups.map (fun e =>
        (e.1, { e.2 with members := e.2.members.filter (fun u => alContains g.user_to_group u) })) =
        g.groups := by
    have : ∀ e ∈ g.groups,
        (e.1, ({ e.2 with members :=
          e.2.members.filter (fun u => alContains g.user_to_group u) } : GroupInfo)) = e := by
      intro e he
      have hfe : e.2.members.filter (fun u => alContains g.user_to_group u) = e.2.members := by
        rw [List.filter_eq_self]
        intro u hu
        have := h2 e.1 e.2 (mem_alGet _ _ _ hnd2 he) u hu
        simp [alContains, this]
      rw [hfe]
    calc g.groups.map (fun e =>
          (e.1, { e.2 with members := e.2.members.filter (fun u => alContains g.user_to_group u) }))
        = g.groups.map id := List.map_congr_left this
      _ = g.groups := List.map_id _
  have hgroups3 : g.groups.filter (fun e => decide (¬e.2.members.isEmpty)) = g.groups := by
    rw [List.filter_eq_self]
    intro e he
    have hne := h3 e.1 e.2 (mem_alGet _ _ _ hnd2 he)
    simp only [decide_eq_true_eq]
    intro hc
    exact hne (List.isEmpty_iff.mp hc)
  show
    (let utg1 := g.user_to_group.filter (fun p => alContains g.groups p.2)
     let pass := fromMapsPass g.groups utg1
     let utg3 := pass.2.filter (fun p => decide (p.1 ∈ pass.1))
     let groups2 := g.groups.map
       (fun e => (e.1, { e.2 with members := e.2.members.filter (fun u => alContains utg3 u) }))
     let groups3 := groups2.filter (fun e => decide (¬e.2.members.isEmpty))
     ({ user_to_group := utg3, groups := groups3, next_group_id := nextIdOf groups3 } :
       GroupSets)) = _
  simp only [hutg1]
  simp only [hutg3]
  simp only [hgroups2]
  simp only [hgroups3]

end GroupSets

/-! ## The memory store (`src/ai/src/memory.rs`) -/

theorem alGet_filter_none {k : Type _} {v : Type _} [DecidableEq k]
    (m : List (k × v)) (p : k × v → Bool) (key : k) (val : v)
    (hnd : alNodup m) (h : alGet m key = some val) (hp : p (key, val) = false) :
    alGet (m.filter p) key = none := by
  rcases hg : alGet (m.filter p) key with _ | w
  · rfl
  · obtain ⟨h1, h2⟩ := alGet_filter m p key w hnd hg
    rw [h] at h1
    injection h1 with h1
    subst h1
    rw [h2] at hp
    cases hp

/-- What `load_history_prune` keeps for one user. -/
theorem load_history_prune_get (now : Instant) (m : List (String × List Entry))
    (u : String) (es : List Entry) (hnd : alNodup m) (hget : alGet m u = some es) :
    alGet (load_history_prune now m) u =
      (if (pruneEntries now es).isEmpty then none
       else some (capEntries (pruneEntries now es))) := by
  have hstep1 : alGet (m.map (fun p => (p.1, pruneEntries now p.2))) u =
      some (pruneEntries now es) := by
    rw [alGet_map_snd, hget]
    rfl
  have hnd1 : alNodup (m.map (fun p => (p.1, pruneEntries now p.2))) := by
    unfold alNodup
    rw [alKeys_map_snd]
    exact hnd
  show alGet ((((m.map (fun p => (p.1, pruneEntries now p.2))).filter
      (fun p => decide (¬p.2.isEmpty))).map (fun p => (p.1, capEntries p.2)))) u = _
  rw [alGet_map_snd]
  by_cases hE : (pruneEntries now es).isEmpty
  · rw [alGet_filter_none _ _ _ _ hnd1 hstep1 (by simp [hE]), if_pos hE]
    rfl
  · rw [alGet_filter_of _ _ _ _ hstep1 (by simp [hE]), if_neg hE]
    rfl

/-- A failed insert leaves the in-memory entries map untouched. -/
theorem add_to_history_error (m : Memory) (user : String) (sender : Sender)
    (receiver message : String) (now : Instant) (insert_err : Option String) (e : String)
    (h : (m.add_to_history user sender receiver message now insert_err).1 = .error e) :
    (m.add_to_history user sender receiver message now insert_err).2.entries = m.entries := by
  cases insert_err with
  | some e' => rfl
  | none => cases h

/-- A failed transactional step in `join_users` leaves the in-memory
`joined_users` view (and everything else) untouched. -/
theorem join_users_error (m : Memory) (user1 user2 receiver : String) (now : Instant)
    (o : TxOutcome) (res : Except String Unit) (m' : Memory) (e : String)
    (h : m.join_users user1 user2 receiver now o = some (res, m'))
    (herr : res = .error e) : m' = m := by
  subst herr
  obtain ⟨b, l, sv, c⟩ := o
  unfold Memory.join_users at h
  dsimp only at h
  cases b with
  | some e' =>
    injection h with h
    injection h with h1 h2
    exact h2.symm
  | none =>
  cases l with
  | some e' =>
    injection h with h
    injection h with h1 h2
    exact h2.symm
  | none =>
  dsimp only at h
  rcases hu : (match alGet (load_group_sets m.storage.group_rows now) receiver with
      | some g0 => g0
      | none => gsEmpty).union user1 user2 now with _ | g'
  · rw [hu] at h
    cases h
  · rw [hu] at h
    dsimp only at h
    cases sv with
    | some e' =>
      injection h with h
      injection h with h1 h2
      exact h2.symm
    | none =>
    cases c with
    | some e' =>
      injection h with h
      injection h with h1 h2
      exact h2.symm
    | none =>
      injection h with h
      injection h with h1 h2
      cases h1

/-- A failed transactional step in `make_user_solo` leaves the in-memory
`joined_users` view (and everything else) untouched. -/
theorem make_user_solo_error (m : Memory) (user receiver : String) (now : Instant)
    (o : TxOutcome) (e : String)
    (h : (m.make_user_solo user receiver now o).1 = .error e) :
    (m.make_user_solo user receiver now o).2 = m := by
  obtain ⟨b, l, sv, c⟩ := o
  unfold Memory.make_user_solo at h ⊢
  dsimp only at h ⊢
  cases b with
  | some e' => rfl
  | none =>
  cases l with
  | some e' => rfl
  | none =>
  dsimp only at h ⊢
  cases sv with
  | some e' => rfl
  | none =>
  cases c with
  | some e' => rfl
  | none => cases h

/-! ## Concrete fixtures for the claim witnesses -/

/-! ## The claims -/

/-- C1 counterexample: the claim is false as stated.  Feeding `from_maps` two
groups that both list user "u" leaves "u" in both surviving member sets while
the index maps "u" only to group 2, violating invariant (2) of the data
model. -/
theorem c1_from_maps_inv2_counterexample :
    (GroupSets.from_maps [] [(1, ⟨["u"], 0⟩), (2, ⟨["u"], 0⟩)]).user_to_group = [("u", 2)] ∧
    alGet (GroupSets.from_maps [] [(1, ⟨["u"], 0⟩), (2, ⟨["u"], 0⟩)]).groups 1 =
      some ⟨["u"], 0⟩ ∧
    ¬ Inv2 (GroupSets.from_maps [] [(1, ⟨["u"], 0⟩), (2, ⟨["u"], 0⟩)]) := by
  refine ⟨by decide, by decide, fun h => ?_⟩
  exact absurd (h 1 ⟨["u"], 0⟩ (by decide) "u" (by decide)) (by decide)

/-- C1 (amended): for every pair of input maps, including mutually
inconsistent ones, the `GroupSets` returned by `from_maps` satisfies
invariants (1), (3) and (4) of the data model; invariant (2) can fail when a
user appears in the member sets of two different groups, because the member
strip only checks presence in the index, not the canonical group id. -/
theorem c1_from_maps_invariants_amended (utg : List (String × Nat))
    (groups : List (Nat × GroupInfo)) (hnd1 : alNodup utg) (hnd2 : alNodup groups)
    (hmems : ∀ e ∈ groups, e.2.members.Nodup) :
    Inv1 (GroupSets.from_maps utg groups) ∧ Inv3 (GroupSets.from_maps utg groups) ∧
      Inv4 (GroupSets.from_maps utg groups) :=
  ⟨(GroupSets.from_maps_props utg groups hnd1 hnd2 hmems).2.1,
   (GroupSets.from_maps_props utg groups hnd1 hnd2 hmems).2.2.1,
   (GroupSets.from_maps_props utg groups hnd1 hnd2 hmems).2.2.2⟩

theorem c1_from_maps_invariants_amended_witness :
    (alNodup ([("a", 7)] : List (String × Nat)) ∧
     alNodup [(1, (⟨["u"], 0⟩ : GroupInfo)), (2, ⟨["u"], 0⟩)] ∧
     (∀ e ∈ [(1, (⟨["u"], 0⟩ : GroupInfo)), (2, ⟨["u"], 0⟩)], e.2.members.Nodup)) ∧
    (Inv1 (GroupSets.from_maps [("a", 7)] [(1, ⟨["u"], 0⟩), (2, ⟨["u"], 0⟩)]) ∧
     Inv3 (GroupSets.from_maps [("a", 7)] [(1, ⟨["u"], 0⟩), (2, ⟨["u"], 0⟩)]) ∧
     Inv4 (GroupSets.from_maps [("a", 7)] [(1, ⟨["u"], 0⟩), (2, ⟨["u"], 0⟩)])) :=
  ⟨⟨by decide, by decide, by decide⟩,
   c1_from_maps_invariants_amended [("a", 7)] [(1, ⟨["u"], 0⟩), (2, ⟨["u"], 0⟩)]
     (by decide) (by decide) (by decide)⟩

/-- C2 evaluated at the failing input (the state the repo's own
`test_memory_singletons` loads): `expire_old_groups` drops both fresh
singleton groups but leaves their index entries dangling, contradicting the
claim that the corresponding index entries are removed. -/
theorem c2_expire_dangling_eval :
    GroupSets.expire_old_groups
      ⟨[("user1", 0), ("user2", 1)], [(0, ⟨["user1"], 0⟩), (1, ⟨["user2"], 0⟩)], 2⟩ 0 =
      ⟨[("user1", 0), ("user2", 1)], [], 2⟩ := by decide

/-- C3: every finite sequence of `add_user`/`union`/`remove_user` operations
from the empty `GroupSets` completes without panicking, and since this holds
for every list it holds for every prefix: all four invariants hold after
every operation. -/
theorem c3_ops_preserve_invariants (ops : List (Op × Instant)) :
    ∃ s, run gsEmpty ops = some s ∧ Inv1 s ∧ Inv2 s ∧ Inv3 s ∧ Inv4 s := by
  obtain ⟨s, hs, hv⟩ := run_valid ops gsEmpty valid_gsEmpty
  exact ⟨s, hs, hv.2.1, hv.2.2.1, hv.2.2.2.1, hv.2.2.2.2⟩

/-- C4 evaluated on a reachable state: after `from_maps` then
`expire_old_groups`, the dangling index entry for "u2" makes
`get_group_members` hit `unwrap` on a missing group — the embedded function
returns `none`, i.e. the source panics instead of returning a value. -/
theorem c4_get_group_members_panics_eval :
    ((GroupSets.from_maps [("u2", 1)] [(1, ⟨["u2"], 0⟩)]).expire_old_groups
      0).get_group_members "u2" = none := by decide

/-- C5: `from_maps` is total — it is a function returning a `GroupSets` on
every input (the source contains no `unwrap` or other panicking operation),
and its output is structurally well-formed. -/
theorem c5_from_maps_total (utg : List (String × Nat)) (groups : List (Nat × GroupInfo))
    (hnd1 : alNodup utg) (hnd2 : alNodup groups)
    (hmems : ∀ e ∈ groups, e.2.members.Nodup) :
    ∃ g', GroupSets.from_maps utg groups = g' ∧ WF g' :=
  ⟨GroupSets.from_maps utg groups, rfl,
   (GroupSets.from_maps_props utg groups hnd1 hnd2 hmems).1⟩

theorem c5_from_maps_total_witness :
    (alNodup ([("a", 99), ("b", 0)] : List (String × Nat)) ∧
     alNodup [(0, (⟨["b", "c"], 5⟩ : GroupInfo)), (1, ⟨["c"], 6⟩), (7, ⟨[], 3⟩)] ∧
     (∀ e ∈ [(0, (⟨["b", "c"], 5⟩ : GroupInfo)), (1, ⟨["c"], 6⟩), (7, ⟨[], 3⟩)],
       e.2.members.Nodup)) ∧
    (∃ g', GroupSets.from_maps [("a", 99), ("b", 0)]
        [(0, ⟨["b", "c"], 5⟩), (1, ⟨["c"], 6⟩), (7, ⟨[], 3⟩)] = g' ∧ WF g') :=
  ⟨⟨by decide, by decide, by decide⟩,
   c5_from_maps_total [("a", 99), ("b", 0)]
     [(0, ⟨["b", "c"], 5⟩), (1, ⟨["c"], 6⟩), (7, ⟨[], 3⟩)]
     (by decide) (by decide) (by decide)⟩

/-- C6 counterexample: the claim is false as stated.  The state is valid (its
allocator 5 sits strictly above the only group id 0, as invariant 4 allows),
but the round trip resets `next_group_id` to 1 ≠ 5. -/
theorem c6_from_maps_idem_counterexample :
    Valid ⟨[("a", 0)], [(0, ⟨["a"], 0⟩)], 5⟩ ∧
    (GroupSets.from_maps [("a", 0)] [(0, ⟨["a"], 0⟩)]).next_group_id = 1 ∧
    (GroupSets.from_maps [("a", 0)] [(0, ⟨["a"], 0⟩)]).next_group_id ≠
      (⟨[("a", 0)], [(0, ⟨["a"], 0⟩)], 5⟩ : GroupSets).next_group_id :=
  ⟨valid_of_checkValid _ (by decide), by decide, by decide⟩

/-- C6 (amended): on a valid state the round trip through `from_maps`
reproduces the index and the groups exactly; the allocator is reset to one
past the maximum surviving group id (which equals the original allocator
whenever it was minimal, e.g. for every state produced by `from_maps`
itself). -/
theorem c6_from_maps_idem_amended (g : GroupSets) (hv : Valid g) :
    (GroupSets.from_maps g.user_to_group g.groups).user_to_group = g.user_to_group ∧
    (GroupSets.from_maps g.user_to_group g.groups).groups = g.groups ∧
    (GroupSets.from_maps g.user_to_group g.groups).next_group_id =
      GroupSets.nextIdOf g.groups := by
  rw [GroupSets.from_maps_idem g hv]
  exact ⟨rfl, rfl, rfl⟩

theorem c6_from_maps_idem_amended_witness :
    Valid ⟨[("a", 0), ("b", 0)], [(0, ⟨["a", "b"], 3⟩)], 1⟩ ∧
    ((GroupSets.from_maps [("a", 0), ("b", 0)] [(0, ⟨["a", "b"], 3⟩)]).user_to_group =
        [("a", 0), ("b", 0)] ∧
     (GroupSets.from_maps [("a", 0), ("b", 0)] [(0, ⟨["a", "b"], 3⟩)]).groups =
        [(0, ⟨["a", "b"], 3⟩)] ∧
     (GroupSets.from_maps [("a", 0), ("b", 0)] [(0, ⟨["a", "b"], 3⟩)]).next_group_id =
        GroupSets.nextIdOf [(0, (⟨["a", "b"], 3⟩ : GroupInfo))]) :=
  ⟨valid_of_checkValid _ (by decide),
   c6_from_maps_idem_amended ⟨[("a", 0), ("b", 0)], [(0, ⟨["a", "b"], 3⟩)], 1⟩
     (valid_of_checkValid _ (by decide))⟩

/-- C7: at load, after age pruning, a user whose surviving entry count
exceeds the cap keeps exactly the most recent `MEMORY_MAX_MESSAGES` entries
(the tail of the chronologically ordered list, in original order), and a
user left with no surviving entries has no key in the map at all. -/
theorem c7_load_history_cap (now : Instant) (m : List (String × List Entry)) (u : String)
    (es : List Entry) (hnd : alNodup m) (hget : alGet m u = some es) :
    (pruneEntries now es = [] → alGet (load_history_prune now m) u = none) ∧
    (MEMORY_MAX_MESSAGES < (pruneEntries now es).length →
      alGet (load_history_prune now m) u =
        some ((pruneEntries now es).drop
          ((pruneEntries now es).length - MEMORY_MAX_MESSAGES))) := by
  have h := load_history_prune_get now m u es hnd hget
  constructor
  · intro hnil
    rw [h, if_pos (by rw [hnil]; rfl)]
  · intro hlen
    have hne : ¬(pruneEntries now es).isEmpty := by
      intro hc
      rw [List.isEmpty_iff.mp hc] at hlen
      simp [MEMORY_MAX_MESSAGES] at hlen
    rw [h, if_neg hne]
    unfold capEntries
    rw [if_pos hlen]

theorem c7_load_history_cap_witness :
    (alNodup [("u", es25)] ∧ alGet [("u", es25)] "u" = some es25 ∧
     MEMORY_MAX_MESSAGES < (pruneEntries 0 es25).length) ∧
    alGet (load_history_prune 0 [("u", es25)]) "u" = some (es25.drop 5) ∧
    (alNodup [("w", esStale)] ∧ alGet [("w", esStale)] "w" = some esStale ∧
     pruneEntries 0 esStale = []) ∧
    alGet (load_history_prune 0 [("w", esStale)]) "w" = none := by
  refine ⟨⟨by decide, by decide, by decide⟩, ?_, ⟨by decide, by decide, by decide⟩, ?_⟩
  · have h := (c7_load_history_cap 0 [("u", es25)] "u" es25 (by decide) (by decide)).2
      (by decide)
    rw [h]
    decide
  · exact (c7_load_history_cap 0 [("w", esStale)] "w" esStale (by decide) (by decide)).1
      (by decide)

/-- C8 counterexample: the claim is false as stated over every `GroupSets`
state.  In a state violating invariant 4 (the allocator equals the live
group id), `remove_user` re-adds the user under its former group id,
overwriting the former group, so the new singleton's id does not differ from
the former id. -/
theorem c8_remove_user_counterexample :
    (⟨[("u", 0), ("v", 0)], [(0, ⟨["u", "v"], 0⟩)], 0⟩ : GroupSets).find_group "u" =
      some 0 ∧
    ((⟨[("u", 0), ("v", 0)], [(0, ⟨["u", "v"], 0⟩)], 0⟩ : GroupSets).remove_user "u"
      7).find_group "u" = some 0 := by decide

/-- C8 (amended): on a state satisfying the §3 invariants, `remove_user`
puts the user into a fresh singleton group `{u}` whose id differs from the
former group id, and every pair of remaining former members still shares the
former group. -/
theorem c8_remove_user_amended (g : GroupSets) (u : String) (now : Instant) (hv : Valid g)
    (gid : Nat) (info : GroupInfo) (hfind : g.find_group u = some gid)
    (hinfo : alGet g.groups gid = some info) :
    ∃ gid', (g.remove_user u now).find_group u = some gid' ∧ gid' ≠ gid ∧
      alGet (g.remove_user u now).groups gid' = some (GroupInfo.new u now) ∧
      ∀ v w, v ∈ info.members → w ∈ info.members → v ≠ u → w ≠ u →
        ∃ info', alGet (g.remove_user u now).groups gid = some info' ∧
          v ∈ info'.members ∧ w ∈ info'.members := by
  obtain ⟨h1, h2, h3, h4⟩ := GroupSets.remove_user_spec g u now hv gid info hfind hinfo
  exact ⟨g.next_group_id, h1, h2, h3, h4⟩

theorem c8_remove_user_amended_witness :
    (Valid ⟨[("a", 0), ("b", 0)], [(0, ⟨["a", "b"], 0⟩)], 1⟩ ∧
     (⟨[("a", 0), ("b", 0)], [(0, ⟨["a", "b"], 0⟩)], 1⟩ : GroupSets).find_group "a" =
       some 0 ∧
     alGet (⟨[("a", 0), ("b", 0)], [(0, ⟨["a", "b"], 0⟩)], 1⟩ : GroupSets).groups 0 =
       some ⟨["a", "b"], 0⟩) ∧
    (∃ gid', ((⟨[("a", 0), ("b", 0)], [(0, ⟨["a", "b"], 0⟩)], 1⟩ : GroupSets).remove_user
        "a" 7).find_group "a" = some gid' ∧ gid' ≠ 0 ∧
      alGet ((⟨[("a", 0), ("b", 0)], [(0, ⟨["a", "b"], 0⟩)], 1⟩ : GroupSets).remove_user
        "a" 7).groups gid' = some (GroupInfo.new "a" 7) ∧
      ∀ v w, v ∈ (⟨["a", "b"], 0⟩ : GroupInfo).members →
        w ∈ (⟨["a", "b"], 0⟩ : GroupInfo).members → v ≠ "a" → w ≠ "a" →
        ∃ info', alGet ((⟨[("a", 0), ("b", 0)], [(0, ⟨["a", "b"], 0⟩)],
          1⟩ : GroupSets).remove_user "a" 7).groups 0 = some info' ∧
          v ∈ info'.members ∧ w ∈ info'.members) :=
  ⟨⟨valid_of_checkValid _ (by decide), by decide, by decide⟩,
   c8_remove_user_amended ⟨[("a", 0), ("b", 0)], [(0, ⟨["a", "b"], 0⟩)], 1⟩ "a" 7
     (valid_of_checkValid _ (by decide)) 0 ⟨["a", "b"], 0⟩ (by decide) (by decide)⟩

/-- C9: whenever a mutating operation reports a storage error — the insert of
`add_to_history`, or any of begin/load/save/commit in `join_users` and
`make_user_solo` — the corresponding in-memory view is exactly what it was
before the call. -/
theorem c9_failed_mutation_state_unchanged (m : Memory)
    (user receiver message u1 u2 : String) (sender : Sender) (now : Instant)
    (ierr : Option String) (o : TxOutcome) (e : String) :
    ((m.add_to_history user sender receiver message now ierr).1 = .error e →
      (m.add_to_history user sender receiver message now ierr).2.entries = m.entries) ∧
    (∀ res m', m.join_users u1 u2 receiver now o = some (res, m') →
      res = .error e → m'.joined_users = m.joined_users) ∧
    ((m.make_user_solo user receiver now o).1 = .error e →
      (m.make_user_solo user receiver now o).2.joined_users = m.joined_users) := by
  refine ⟨add_to_history_error m user sender receiver message now ierr e,
    fun res m' hj he => ?_, fun h => ?_⟩
  · rw [join_users_error m u1 u2 receiver now o res m' e hj he]
  · rw [make_user_solo_error m user receiver now o e h]

theorem c9_failed_mutation_state_unchanged_witness :
    ((memFix.add_to_history "u" Sender.user "r" "msg" 0 (some "boom")).1 =
      Except.error "Failed to save history to database: boom") ∧
    ((memFix.add_to_history "u" Sender.user "r" "msg" 0 (some "boom")).2.entries =
      memFix.entries) ∧
    (memFix.join_users "u" "v" "r" 0 txFail = some (Except.error "tx", memFix)) ∧
    (memFix.joined_users = memFix.joined_users) ∧
    ((memFix.make_user_solo "u" "r" 0 txFail).1 = Except.error "tx") ∧
    ((memFix.make_user_solo "u" "r" 0 txFail).2.joined_users = memFix.joined_users) := by
  refine ⟨by rfl, ?_, by rfl, ?_, by rfl, ?_⟩
  · exact (c9_failed_mutation_state_unchanged memFix "u" "r" "msg" "u" "v" Sender.user 0
      (some "boom") txFail "Failed to save history to database: boom").1 (by rfl)
  · exact (c9_failed_mutation_state_unchanged memFix "u" "r" "msg" "u" "v" Sender.user 0
      (some "boom") txFail "tx").2.1 (Except.error "tx") memFix (by rfl) rfl
  · exact (c9_failed_mutation_state_unchanged memFix "u" "r" "msg" "u" "v" Sender.user 0
      (some "boom") txFail "tx").2.2 (by rfl)

/-- C10 counterexample: the claim is false as stated over every `GroupSets`
state.  Starting from an (invalid) state where "b"'s index entry points at a
group that does not list "b", both unions complete, yet afterwards
`find_group "a" = some 0` while `find_group "c" = some 1`. -/
theorem c10_union_transitive_counterexample :
    ((⟨[("a", 0), ("b", 0), ("c", 1)], [(0, ⟨["a"], 0⟩), (1, ⟨["x"], 0⟩)],
        2⟩ : GroupSets).union "a" "b" 5).bind (fun s1 => s1.union "b" "c" 6) =
      some ⟨[("a", 0), ("b", 0), ("c", 1), ("x", 0)], [(0, ⟨["a", "x"], 6⟩)], 2⟩ ∧
    (⟨[("a", 0), ("b", 0), ("c", 1), ("x", 0)], [(0, ⟨["a", "x"], 6⟩)],
      2⟩ : GroupSets).find_group "a" = some 0 ∧
    (⟨[("a", 0), ("b", 0), ("c", 1), ("x", 0)], [(0, ⟨["a", "x"], 6⟩)],
      2⟩ : GroupSets).find_group "c" = some 1 := by decide

/-- C10 (amended): on a state satisfying the §3 invariants, `union(a,b)`
followed by `union(b,c)` completes and afterwards `find_group a` equals
`find_group c`, both `some`. -/
theorem c10_union_transitive_amended (g : GroupSets) (a b c : String) (t1 t2 : Instant)
    (hv : Valid g) :
    ∃ s1 s2, g.union a b t1 = some s1 ∧ s1.union b c t2 = some s2 ∧
      s2.find_group a = s2.find_group c ∧ (s2.find_group a).isSome := by
  obtain ⟨s1, hs1, hv1, _⟩ := GroupSets.union_spec g a b t1 hv
  obtain ⟨_, hab, hsome1, _⟩ := GroupSets.union_post g a b t1 hv s1 hs1
  obtain ⟨s2, hs2, hv2, _⟩ := GroupSets.union_spec s1 b c t2 hv1
  obtain ⟨_, hbc, hsome2, hpres⟩ := GroupSets.union_post s1 b c t2 hv1 s2 hs2
  have hab2 : s2.find_group a = s2.find_group b := hpres a b hab hsome1
  refine ⟨s1, s2, hs1, hs2, by rw [hab2, hbc], ?_⟩
  rw [hab2]
  exact hsome2

theorem c10_union_transitive_amended_witness :
    Valid gsEmpty ∧
    (∃ s1 s2, gsEmpty.union "a" "b" 1 = some s1 ∧ s1.union "b" "c" 2 = some s2 ∧
      s2.find_group "a" = s2.find_group "c" ∧ (s2.find_group "a").isSome) :=
  ⟨valid_of_checkValid _ (by decide),
   c10_union_transitive_amended gsEmpty "a" "b" "c" 1 2
     (valid_of_checkValid _ (by decide))⟩

end JT
